import Mathlib

/-!
Verification of the core of a disk-backed key-value database engine
(extendible hash index, B+-tree range cursor, pager, lock/transaction
manager, deadlock detection, write-ahead-log recovery) against its
natural-language specification.  Each Go function that a claim depends on
is shallowly embedded as an executable Lean definition; machine integers
are modelled as Int/Nat (no arithmetic in the embedded fragments comes
near 64-bit overflow), in-place mutation becomes explicit state passing,
fallible Go functions return pairs with an error component or Except, and
potentially non-terminating loops take explicit fuel (a result of none
means the fuel ran out, i.e. the Go code has not returned yet).
-/

namespace DbCore

/-! ## Extendible hash index: buckets (pkg/hash/bucket.go) -/

/-- An entry of a hash bucket: a (key, value) pair of int64s. -/
structure HashEntry where
  key : Int
  value : Int
deriving Repr, DecidableEq

/-- A hash bucket page: local depth, and its live entries
(the Go page stores numKeys plus a fixed-capacity entry array; we keep
the live prefix of length numKeys as a list). -/
structure HashBucket where
  depth : Nat
  entries : List HashEntry
deriving Repr, DecidableEq

/-- HashBucket.Find (bucket.go): linear scan for the first entry with the
given key; returns the entry and a found flag. -/
def HashBucket.find (b : HashBucket) (key : Int) : Option HashEntry :=
  b.entries.find? (fun e => e.key == key)

/-- The in-place update loop of HashBucket.Update: overwrite the value of
the first entry whose key matches; none if no entry matches. -/
def updateEntries (key value : Int) : List HashEntry → Option (List HashEntry)
  | [] => none
  | e :: es =>
    if e.key == key then some ({ key := key, value := value } :: es)
    else (updateEntries key value es).map (fun es2 => e :: es2)

/-- HashBucket.Update (bucket.go): scan for the key, overwrite its value in
place, or fail with a key-not-found error.  The Go method mutates the
bucket and returns an error; we return the resulting bucket together with
the optional error message. -/
def HashBucket.update (b : HashBucket) (key value : Int) :
    HashBucket × Option String :=
  match updateEntries key value b.entries with
  | some es => ({ b with entries := es }, none)
  | none => (b, some "key not found, update aborted")

/-- The delete loop of HashBucket.Delete: remove the first entry whose key
matches, shifting the remaining entries left; none if no entry matches. -/
def deleteEntries (key : Int) : List HashEntry → Option (List HashEntry)
  | [] => none
  | e :: es =>
    if e.key == key then some es
    else (deleteEntries key es).map (fun es2 => e :: es2)

/-- HashBucket.Delete (bucket.go): find the first index holding the key;
if none, fail with a key-not-found error; otherwise shift all later
entries left by one and decrement numKeys. -/
def HashBucket.delete (b : HashBucket) (key : Int) :
    HashBucket × Option String :=
  match deleteEntries key b.entries with
  | some es => ({ b with entries := es }, none)
  | none => (b, some "key not found, delete aborted")

/-- HashBucket.Select (bucket.go): all live entries in order. -/
def HashBucket.select (b : HashBucket) : List HashEntry :=
  b.entries

/-! ## Extendible hash index: the table (pkg/hash/table.go)

The Go table owns a pager; bucket pages are allocated through
Pager.GetFreePN, which always returns the next fresh page number, so we
model the collection of bucket pages as a list indexed by page number
(allocation appends).  The directory is the list of bucket page numbers
and the global depth its log-size. -/

/-- The hash table header: global depth and the directory of bucket page
numbers (directory slots may alias the same bucket). -/
structure HashTable where
  depth : Nat
  buckets : List Nat
deriving Repr, DecidableEq

/-- A hash index state: the table header plus the bucket pages reachable
through the pager, indexed by page number. -/
structure HashState where
  table : HashTable
  pages : List HashBucket
deriving Repr, DecidableEq

/-- Modelled from the spec: the hash function hasher.go is not part of the
sources; per the spec, Hasher(key, d) returns the low d bits of a 64-bit
mixing hash of the key.  We parameterise everything by the mixing
function mix, so all theorems hold for every possible mixing hash. -/
def Hasher (mix : Int → Nat) (key : Int) (depth : Nat) : Nat :=
  mix key % 2 ^ depth

/-- HashTable.GetBucket resolves a directory slot to its bucket page
(table.go GetBucket / GetBucketByPN fetch the page through the pager;
failure of the page fetch is modelled by none). -/
def HashState.getBucket (s : HashState) (hash : Nat) : Option HashBucket :=
  match s.table.buckets[hash]? with
  | none => none
  | some pn => s.pages[pn]?

/-- HashTable.Find (table.go): hash the key with the global depth, fetch
the bucket at that directory slot, and scan it.  The Go method returns
the pair (entry, error); when the bucket scan misses, the code prints
diagnostics and then returns the nil entry together with a nil error. -/
def HashState.find (mix : Int → Nat) (s : HashState) (key : Int) :
    Option HashEntry × Option String :=
  let hash := Hasher mix key s.table.depth
  if s.table.buckets.length ≤ hash then (none, some "not found")
  else
    match s.getBucket hash with
    | none => (none, some "get bucket failed")
    | some bucket =>
      match bucket.find key with
      | some entry => (some entry, none)
      | none => (none, none)

/-- NewHashTable (table.go): global depth 2, four fresh empty buckets of
local depth 2, directory listing their page numbers in order. -/
def newHashTable : HashState :=
  { table := { depth := 2, buckets := [0, 1, 2, 3] }
    pages :=
      [ { depth := 2, entries := [] }, { depth := 2, entries := [] },
        { depth := 2, entries := [] }, { depth := 2, entries := [] } ] }

/-! ### Insert and Split (table.go) for the IsHash invariant (C4) -/

/-- Modelled from the spec: HashBucket.Insert is left unimplemented in the
sources (bucket.go panics); per the spec it appends the entry to the
bucket page and reports overflow when numKeys reaches BUCKETSIZE, and a
duplicate key fails DUPLICATE.  bsize is the BUCKETSIZE constant. -/
def HashBucket.insert (bsize : Nat) (b : HashBucket) (key value : Int) :
    Option (HashBucket × Bool) :=
  if b.entries.any (fun e => e.key == key) then none
  else
    let b2 : HashBucket := { b with entries := b.entries ++ [{ key := key, value := value }] }
    some (b2, b2.entries.length == bsize)

/-- HashTable.ExtendTable (table.go): increment the global depth and
duplicate the directory. -/
def HashTable.extendTable (t : HashTable) : HashTable :=
  { depth := t.depth + 1, buckets := t.buckets ++ t.buckets }

/-- The directory rewrite loop of Split (table.go lines 152-157): starting
at startNum and stepping by updSize while the index is at most tableSize,
point slot i at the old bucket and slot i + updSize/2 at the new bucket.
The recursion is fuelled by the iteration count, which is bounded by
tableSize + 1. -/
def rewriteDirLoop (bpn npn updSize tableSize : Nat) :
    Nat → Nat → List Nat → List Nat
  | _, 0, dir => dir
  | i, fuel + 1, dir =>
    if i ≤ tableSize then
      rewriteDirLoop bpn npn updSize tableSize (i + updSize) fuel
        ((dir.set i bpn).set (i + updSize / 2) npn)
    else dir

/-- The full directory rewrite of Split: loop from startNum with enough
fuel to cover every slot. -/
def rewriteDir (dir : List Nat) (startNum updSize tableSize bpn npn : Nat) :
    List Nat :=
  rewriteDirLoop bpn npn updSize tableSize startNum (tableSize + 1) dir

/-- HashTable.Split (table.go): increment the splitting bucket's local
depth, extend the table if the new local depth exceeds the global depth,
allocate a fresh bucket of the same local depth, move every entry whose
hash at the new local depth has its top bit set (the Go test
(newHash % update_size) - update_size/2 >= 0), rewrite the directory
slots congruent to the bucket's old pattern, and recurse: first, if the
new bucket received no entry, re-split the old bucket; then (a second,
separate if statement, re-reading the old bucket's numKeys, which the
first recursion may have changed) if the old bucket is empty, split the
new bucket.  The Go redistribution loop walks the entry
array from the last index down, inserting each moving entry into the new
bucket and deleting it from the old one; on the list model this keeps the
staying entries in order and collects the moving entries in reverse
order.  The recursion is fuelled; none means the Go code has not
returned (the recursion can run forever when every entry keeps hashing to
the same side). -/
structure SplitOut where
  st : HashState
  startNum : Nat
  half : Nat
  keptLen : Nat
  movedLen : Nat

/-- The non-recursive body of Split (table.go lines 105-171): increment
the local depth, extend the table when the new local depth exceeds the
global depth, allocate the fresh bucket npn = pages.length, partition the
entries by the top bit of their hash at the new local depth, and rewrite
the directory slots congruent to the old pattern.  Returns the new state
together with startNum (the loop's starting slot, the bucket's old
pattern), updSize/2, and the two partition sizes used by the recursion
conditions. -/
def splitStep (mix : Int → Nat) (s : HashState) (bucket : HashBucket)
    (bpn hash : Nat) : SplitOut :=
  let npn := s.pages.length
  let d2 := bucket.depth + 1
  let t2 :=
    if s.table.depth < d2 then s.table.extendTable else s.table
  let updSize := 2 ^ d2
  let movePred := fun (e : HashEntry) =>
    updSize / 2 ≤ Hasher mix e.key d2 % updSize
  let oldB : HashBucket :=
    { depth := d2, entries := bucket.entries.filter (fun e => ¬ movePred e) }
  let newB : HashBucket :=
    { depth := d2, entries := (bucket.entries.filter movePred).reverse }
  let startNum0 := hash % updSize
  let startNum :=
    if updSize / 2 ≤ startNum0 then startNum0 - updSize / 2 else startNum0
  let tableSize := 2 ^ t2.depth - 1
  let dir2 := rewriteDir t2.buckets startNum updSize tableSize bpn npn
  let s2 : HashState :=
    { table := { depth := t2.depth, buckets := dir2 }
      pages := s.pages.set bpn oldB ++ [newB] }
  { st := s2, startNum := startNum, half := updSize / 2,
    keptLen := oldB.entries.length, movedLen := newB.entries.length }

def HashState.split (mix : Int → Nat) :
    Nat → HashState → Nat → Nat → Option HashState
  | 0, _, _, _ => none
  | fuel + 1, s, bpn, hash =>
    match s.pages[bpn]? with
    | none => none
    | some bucket =>
      let npn := s.pages.length
      let r := splitStep mix s bucket bpn hash
      if r.movedLen == 0 then
        match HashState.split mix fuel r.st bpn r.startNum with
        | none => none
        | some s3 =>
          match s3.pages[bpn]? with
          | none => none
          | some b3 =>
            if b3.entries.length == 0 then
              HashState.split mix fuel s3 npn (r.startNum + r.half)
            else some s3
      else if r.keptLen == 0 then
        HashState.split mix fuel r.st npn (r.startNum + r.half)
      else some r.st

/-- HashTable.Insert (table.go): hash with the global depth, insert into
the bucket at that slot, and split when the bucket reports overflow (the
Go code discards Split's error).  The outer none means the pager model
failed or the split fuel ran out; the inner error component carries the
bucket-level duplicate failure, after which the state is unchanged. -/
def HashState.insert (mix : Int → Nat) (bsize fuel : Nat) (s : HashState)
    (key value : Int) : Option (HashState × Option String) :=
  let hash := Hasher mix key s.table.depth
  match s.table.buckets[hash]? with
  | none => none
  | some pn =>
    match s.pages[pn]? with
    | none => none
    | some bucket =>
      match bucket.insert bsize key value with
      | none => some (s, some "duplicate key")
      | some (b2, shouldSplit) =>
        let s1 : HashState :=
          { table := s.table, pages := s.pages.set pn b2 }
        if shouldSplit then
          match HashState.split mix fuel s1 pn hash with
          | none => none
          | some s2 => some (s2, none)
        else some (s1, none)

/-- A whole run of Insert operations from the fresh table (C4 quantifies
over every such sequence); duplicate-key failures leave the state
unchanged, as in the Go code. -/
def insertAll (mix : Int → Nat) (bsize fuel : Nat) :
    HashState → List (Int × Int) → Option HashState
  | s, [] => some s
  | s, (k, v) :: ops =>
    match HashState.insert mix bsize fuel s k v with
    | none => none
    | some (s2, _) => insertAll mix bsize fuel s2 ops

/-- IsHash (verify.go): for every directory slot, fetch its bucket and
check that every entry re-hashes (at the bucket's local depth) to a
directory slot holding this same bucket page number.  A failing page
fetch is an error in Go; it cannot happen on well-formed states and is
modelled as false. -/
def isHash (mix : Int → Nat) (s : HashState) : Bool :=
  s.table.buckets.all (fun pn =>
    match s.pages[pn]? with
    | none => false
    | some bucket =>
      bucket.entries.all (fun e =>
        s.table.buckets[Hasher mix e.key bucket.depth]? == some pn))

/-! ## Waits-for graph and deadlock detection (pkg/concurrency/deadlock.go)

Transactions are heap objects compared by pointer in Go; we give each a
numeric identity.  The graph is the flat edge vector of the source. -/

/-- A waits-for edge (from waits for to). -/
abbrev WEdge := Nat × Nat

/-- dfs (deadlock.go): scan the edge vector for the first edge leaving
from; if its target is already in seen report a cycle, otherwise follow
that single edge (the Go loop returns inside its first match, so later
edges leaving the same vertex are never tried).  Fuelled: the Go
recursion terminates because seen grows along a duplicate-free path, so
any fuel larger than the number of edges is enough. -/
def wgDfs (edges : List WEdge) : Nat → Nat → List Nat → Bool
  | 0, _, _ => false
  | fuel + 1, v, seen =>
    match edges.find? (fun e => e.1 == v) with
    | none => false
    | some e =>
      if seen.contains e.2 then true
      else wgDfs edges fuel e.2 (seen ++ [v])

/-- Graph.DetectCycle (the completed draft): for each edge run dfs from
its source with an empty seen list; report a cycle if any run does.  The
duplicated drafts in the source behave identically because the middle
variant's seen set is always empty too. -/
def detectCycle (edges : List WEdge) : Bool :=
  edges.any (fun e => wgDfs edges (edges.length * 2 + 2) e.1 [])

/-- A closed walk witnessing a cycle: consecutive vertices are edges and
the list ends where it starts. -/
def isClosedWalk (edges : List WEdge) (l : List Nat) : Bool :=
  match l with
  | [] => false
  | [_] => false
  | v :: rest =>
    (List.zip (v :: rest) rest).all (fun p => edges.contains p) &&
      l.getLast? == some v

/-! ## Transaction manager (pkg/concurrency/transaction.go) -/

/-- Lock modes: R_LOCK = SHARED, W_LOCK = EXCLUSIVE. -/
inductive LockType where
  | rLock
  | wLock
deriving Repr, DecidableEq

/-- A resource: (table name, key), the locking granularity. -/
abbrev TMResource := String × Int

/-- A transaction as the manager sees it: client identity and the map of
resources it holds with their modes (modelled as an association list). -/
structure TMTransaction where
  clientId : Nat
  resources : List (TMResource × LockType)
deriving Repr, DecidableEq

/-- The transaction-manager state used by Lock: the transaction table and
the waits-for graph's edge vector.  The lock-manager internals live in a
separate missing source file; the Lock call into it blocks until granted
and is not part of this state. -/
structure TMState where
  transactions : List TMTransaction
  graphEdges : List WEdge
deriving Repr, DecidableEq

/-- discoverTransactions (transaction.go): all transactions holding the
resource in a conflicting mode (any holder conflicts with an EXCLUSIVE
request; an EXCLUSIVE holder conflicts with any request). -/
def discoverTransactions (st : TMState) (r : TMResource) (lType : LockType) :
    List TMTransaction :=
  st.transactions.filter (fun t =>
    t.resources.any (fun p =>
      p.1 == r && (p.2 == LockType.wLock || lType == LockType.wLock)))

/-- TransactionManager.Lock (transaction.go lines 258-300, the completed
variant): look up the transaction; if it already holds the resource,
return nil for the same or a weaker mode and an error for a SHARED to
EXCLUSIVE upgrade; otherwise add a waits-for edge per conflicting
transaction, run cycle detection, remove those edges again, and then
either fail with a deadlock error or call the (blocking) lock manager and
record the resource.  The blocking call is outside this state; the
function returns the updated manager state and the optional error. -/
def tmLock (st : TMState) (clientId : Nat) (tableName : String) (key : Int)
    (lType : LockType) : TMState × Option String :=
  match st.transactions.find? (fun t => t.clientId == clientId) with
  | none => (st, some "No existing transact")
  | some tran =>
    let r : TMResource := (tableName, key)
    match (tran.resources.find? (fun p => p.1 == r)).map Prod.snd with
    | some lockType =>
      if lType == LockType.wLock && lockType == LockType.rLock then
        (st, some "requesting write lock over existing read lock")
      else (st, none)
    | none =>
      let conflicts := discoverTransactions st r lType
      let edges1 := st.graphEdges ++ conflicts.map (fun c => (c.clientId, clientId))
      let cycle := detectCycle edges1
      let edges2 := conflicts.foldl
        (fun es c => es.erase (c.clientId, clientId)) edges1
      if cycle then ({ st with graphEdges := edges2 }, some "Cycle detected")
      else
        let tran2 : TMTransaction :=
          { tran with resources := tran.resources ++ [(r, lType)] }
        ({ transactions :=
            st.transactions.map (fun t =>
              if t.clientId == clientId then tran2 else t)
           graphEdges := edges2 }, none)

/-! ### The order of events inside Lock (C7)

The claim is temporal: while the lock request is blocked inside the lock
manager, the waits-for edges must still be in the graph.  We expose the
order in which the statements of the completed Lock execute as an event
trace and compute the graph contents at the moment the blocking
lock-manager call starts. -/

/-- The observable actions of Lock's no-held-resource path, in program
order (transaction.go lines 277-299). -/
inductive LockStep where
  | addEdge (conflictId requesterId : Nat)
  | detectCycleStep
  | removeEdge (conflictId requesterId : Nat)
  | lockManagerLock
  | recordResource
deriving Repr, DecidableEq

/-- The statement order of the completed Lock on the path where the
resource is not yet held and no cycle is found: add all the waits-for
edges, detect cycles, remove all the edges again, and only then call the
blocking lock manager and record the resource. -/
def tmLockSteps (conflicts : List Nat) (requesterId : Nat) : List LockStep :=
  (conflicts.map (fun c => LockStep.addEdge c requesterId)) ++
    [LockStep.detectCycleStep] ++
    (conflicts.map (fun c => LockStep.removeEdge c requesterId)) ++
    [LockStep.lockManagerLock, LockStep.recordResource]

/-- Replay the graph mutations of a step prefix. -/
def graphAfterSteps : List LockStep → List WEdge → List WEdge
  | [], g => g
  | LockStep.addEdge c r :: rest, g => graphAfterSteps rest (g ++ [(c, r)])
  | LockStep.removeEdge c r :: rest, g => graphAfterSteps rest (g.erase (c, r))
  | _ :: rest, g => graphAfterSteps rest g

/-- The graph contents at the moment the blocking lock-manager call is
entered (the request becomes pending there). -/
def graphWhenPending (conflicts : List Nat) (requesterId : Nat) : List WEdge :=
  graphAfterSteps
    ((tmLockSteps conflicts requesterId).takeWhile
      (fun s => s != LockStep.lockManagerLock)) []

/-! ## Recovery manager (pkg/recovery/recovery.go and the Recover draft)

The database the log records act on: named tables of (key, value) pairs.
The db package (HandleInsert / HandleUpdate / HandleDelete and the table
registry) is not among the sources, so its handlers are modelled from the
spec (section 7: Find/Update/Delete on an absent key fail NOT_FOUND,
Insert on an existing key fails DUPLICATE). -/

/-- A database: tables by lowercase name, each an ordered (key, value)
association list. -/
abbrev Db := List (String × List (Int × Int))

/-- Look up a table by name. -/
def dbGet (d : Db) (tbl : String) : Option (List (Int × Int)) :=
  (d.find? (fun p => p.1 == tbl)).map Prod.snd

/-- Replace a table's contents. -/
def dbSet (d : Db) (tbl : String) (t : List (Int × Int)) : Db :=
  d.map (fun p => if p.1 == tbl then (tbl, t) else p)

/-- Find a key's value in a table. -/
def tblFind (t : List (Int × Int)) (k : Int) : Option Int :=
  (t.find? (fun p => p.1 == k)).map Prod.snd

/-- Overwrite the value of the first matching key. -/
def tblSet (k v : Int) : List (Int × Int) → List (Int × Int)
  | [] => []
  | p :: ps => if p.1 == k then (k, v) :: ps else p :: tblSet k v ps

/-- Remove the first entry with the given key. -/
def tblRemove (k : Int) : List (Int × Int) → List (Int × Int)
  | [] => []
  | p :: ps => if p.1 == k then ps else p :: tblRemove k ps

/-- Find a key through the database. -/
def dbFind (d : Db) (tbl : String) (k : Int) : Option Int :=
  match dbGet d tbl with
  | none => none
  | some t => tblFind t k

/-- Modelled from the spec: db.HandleInsert (the db package is not among
the sources); inserting an existing key fails DUPLICATE. -/
def handleInsert (d : Db) (tbl : String) (k v : Int) : Except String Db :=
  match dbGet d tbl with
  | none => Except.error "no such table"
  | some t =>
    if (tblFind t k).isSome then Except.error "duplicate"
    else Except.ok (dbSet d tbl (t ++ [(k, v)]))

/-- Modelled from the spec: db.HandleUpdate; updating an absent key fails
NOT_FOUND. -/
def handleUpdate (d : Db) (tbl : String) (k v : Int) : Except String Db :=
  match dbGet d tbl with
  | none => Except.error "no such table"
  | some t =>
    if (tblFind t k).isSome then Except.ok (dbSet d tbl (tblSet k v t))
    else Except.error "not found"

/-- Modelled from the spec: db.HandleDelete; deleting an absent key fails
NOT_FOUND. -/
def handleDelete (d : Db) (tbl : String) (k : Int) : Except String Db :=
  match dbGet d tbl with
  | none => Except.error "no such table"
  | some t =>
    if (tblFind t k).isSome then Except.ok (dbSet d tbl (tblRemove k t))
    else Except.error "not found"

/-- Modelled from the spec: db.HandleCreateTable; creates an empty table,
failing if the name is taken. -/
def handleCreateTable (d : Db) (tbl : String) : Except String Db :=
  match dbGet d tbl with
  | none => Except.ok (d ++ [(tbl, [])])
  | some _ => Except.error "table already exists"

/-- The WAL record kinds (recovery log.go). -/
inductive Action where
  | insertAct
  | updateAct
  | deleteAct
deriving Repr, DecidableEq

/-- An edit log record: transaction, table, action, key, old and new
value. -/
structure EditLog where
  id : Nat
  tablename : String
  action : Action
  key : Int
  oldval : Int
  newval : Int
deriving Repr, DecidableEq

/-- A log record (tableLog, startLog, editLog, commitLog,
checkpointLog). -/
inductive LogRec where
  | table (tblType tblName : String)
  | start (id : Nat)
  | edit (e : EditLog)
  | commit (id : Nat)
  | checkpoint (ids : List Nat)
deriving Repr, DecidableEq

/-- RecoveryManager.Redo (recovery.go lines 95-138): re-apply a table or
edit record through the db handlers.  An INSERT that fails falls back to
UPDATE(newval); an UPDATE that fails falls back to INSERT(newval); a
DELETE that fails propagates its error with no fallback. -/
def redo (d : Db) : LogRec → Except String Db
  | LogRec.table _ tblName => handleCreateTable d tblName
  | LogRec.edit e =>
    match e.action with
    | Action.insertAct =>
      match handleInsert d e.tablename e.key e.newval with
      | Except.ok d2 => Except.ok d2
      | Except.error _ => handleUpdate d e.tablename e.key e.newval
    | Action.updateAct =>
      match handleUpdate d e.tablename e.key e.newval with
      | Except.ok d2 => Except.ok d2
      | Except.error _ => handleInsert d e.tablename e.key e.newval
    | Action.deleteAct => handleDelete d e.tablename e.key
  | _ => Except.error "can only redo edit logs"

/-- Modelled from the spec: recovery.HandleInsert, the logging variant of
insert used on the undo path (its source file is missing); per section 7,
failed edits on the undo pass try the complementary operation first. -/
def handleInsertRepair (d : Db) (tbl : String) (k v : Int) :
    Except String Db :=
  match handleInsert d tbl k v with
  | Except.ok d2 => Except.ok d2
  | Except.error _ => handleUpdate d tbl k v

/-- Modelled from the spec: recovery.HandleUpdate, the logging variant of
update used on the undo path, with repair on a missing key. -/
def handleUpdateRepair (d : Db) (tbl : String) (k v : Int) :
    Except String Db :=
  match handleUpdate d tbl k v with
  | Except.ok d2 => Except.ok d2
  | Except.error _ => handleInsert d tbl k v

/-- Modelled from the spec: recovery.HandleDelete, the logging variant of
delete used on the undo path; a delete of an absent key succeeds
silently. -/
def handleDeleteRepair (d : Db) (tbl : String) (k : Int) :
    Except String Db :=
  match handleDelete d tbl k with
  | Except.ok d2 => Except.ok d2
  | Except.error _ => Except.ok d

/-- RecoveryManager.Undo (recovery.go lines 141-168): apply the inverse of
an edit record: DELETE for an INSERT, INSERT of oldval for a DELETE and
UPDATE with oldval for an UPDATE, through the logging handler variants.
Non-edit records are rejected. -/
def undoRec (d : Db) : LogRec → Except String Db
  | LogRec.edit e =>
    match e.action with
    | Action.insertAct => handleDeleteRepair d e.tablename e.key
    | Action.updateAct => handleUpdateRepair d e.tablename e.key e.oldval
    | Action.deleteAct => handleInsertRepair d e.tablename e.key e.oldval
  | _ => Except.error "can only undo edit logs"

/-- The undo pass of the Recover draft (part_007 lines 253-267): iterate
the post-checkpoint records with an ascending index, applying Undo to
every edit record of an active transaction (start records commit the
transaction in the manager; they do not touch the database). -/
def undoPassFwd (active : List Nat) : Db → List LogRec → Except String Db
  | d, [] => Except.ok d
  | d, LogRec.edit e :: rest =>
    if active.contains e.id then
      match undoRec d (LogRec.edit e) with
      | Except.error m => Except.error m
      | Except.ok d2 => undoPassFwd active d2 rest
    else undoPassFwd active d rest
  | d, _ :: rest => undoPassFwd active d rest

/-- The undo pass the claim describes: walk the records in reverse,
applying the inverse operation of each active transaction's edit. -/
def undoPassRev (active : List Nat) (d : Db) (logs : List LogRec) :
    Except String Db :=
  undoPassFwd active d logs.reverse

/-! ## Pager (pkg/pager/pager.go)

A frame carries its page number, dirty flag, pin count and payload.  The
payload is abstracted to a single integer: 0 is the zero-filled buffer a
fresh frame starts with (directio.AlignedBlock hands out zeroed memory),
and ReadPageFromDisk copies the file's content for the page.  The page
table is represented implicitly: a page number is resident exactly when a
frame on the pinned or unpinned list carries it, which is the pager's own
invariant about the table's range. -/

/-- The NOPAGE sentinel of a free frame. -/
def NOPAGE : Int := -1

/-- A buffer-pool frame. -/
structure PFrame where
  pagenum : Int
  dirty : Bool
  pinCount : Nat
  data : Int
deriving Repr, DecidableEq

/-- The pager: backing file flag and contents, page count, and the three
frame lists. -/
structure PagerState where
  hasFile : Bool
  maxPageNum : Int
  freeL : List PFrame
  unpinnedL : List PFrame
  pinnedL : List PFrame
  file : Int → Int

/-- Page-table style lookup of a resident frame in one list. -/
def findFrame (l : List PFrame) (pn : Int) : Option PFrame :=
  l.find? (fun f => f.pagenum == pn)

/-- Increment the pin count of the first frame with the page number,
leaving it in place. -/
def bumpPin : List PFrame → Int → List PFrame
  | [], _ => []
  | f :: fs, pn =>
    if f.pagenum == pn then { f with pinCount := f.pinCount + 1 } :: fs
    else f :: bumpPin fs pn

/-- Pop the first frame with the page number out of a list. -/
def extractFrame : List PFrame → Int → Option (PFrame × List PFrame)
  | [], _ => none
  | f :: fs, pn =>
    if f.pagenum == pn then some (f, fs)
    else (extractFrame fs pn).map (fun r => (r.1, f :: r.2))

/-- Pager.NewPage (pager.go): take the head of the free list if any;
otherwise, when the pager is disk-backed and the unpinned list is
non-empty, evict its head, flushing it to the file first if dirty;
otherwise fail with NO_FRAMES.  The selected frame keeps its buffer
contents, gets the new page number, is clean, and has pin count 1. -/
def newPage (p : PagerState) (pagenum : Int) : Option (PagerState × PFrame) :=
  match p.freeL with
  | f :: rest =>
    some ({ p with freeL := rest },
      { pagenum := pagenum, dirty := false, pinCount := 1, data := f.data })
  | [] =>
    match p.unpinnedL with
    | u :: rest =>
      if p.hasFile then
        let file2 :=
          if u.dirty then fun pn => if pn = u.pagenum then u.data else p.file pn
          else p.file
        some ({ p with unpinnedL := rest, file := file2 },
          { pagenum := pagenum, dirty := false, pinCount := 1, data := u.data })
      else none
    | [] => none

/-- Pager.GetPage (pager.go lines 162-208): reject negative page numbers;
return a resident frame with its pin count bumped (moving it from the
unpinned to the pinned list if needed); otherwise allocate a frame with
NewPage and either treat the page as new (pagenum at or beyond
maxPageNum: increment maxPageNum by one and set the dirty flag, without
touching the buffer) or read its contents from disk. -/
def getPage (p : PagerState) (pagenum : Int) : Option (PagerState × PFrame) :=
  if pagenum < 0 then none
  else
    match findFrame p.pinnedL pagenum with
    | some f =>
      some ({ p with pinnedL := bumpPin p.pinnedL pagenum },
        { f with pinCount := f.pinCount + 1 })
    | none =>
      match extractFrame p.unpinnedL pagenum with
      | some (f, rest) =>
        let f2 := { f with pinCount := f.pinCount + 1 }
        some ({ p with unpinnedL := rest, pinnedL := p.pinnedL ++ [f2] }, f2)
      | none =>
        match newPage p pagenum with
        | none => none
        | some (p1, f) =>
          if p.maxPageNum ≤ pagenum then
            let f2 := { f with dirty := true }
            let p2 := { p1 with maxPageNum := p1.maxPageNum + 1 }
            some ({ p2 with pinnedL := p2.pinnedL ++ [f2] }, f2)
          else
            let f2 := { f with dirty := false, data := p.file pagenum }
            some ({ p1 with pinnedL := p1.pinnedL ++ [f2] }, f2)

/-- Modelled from the spec: Page.Put (page.go is not among the sources);
it decrements the pin count and returns the frame to the unpinned list
tail when the count reaches zero. -/
def putPage (p : PagerState) (pn : Int) : PagerState :=
  match extractFrame p.pinnedL pn with
  | none => p
  | some (f, rest) =>
    if f.pinCount ≤ 1 then
      let f2 := { f with pinCount := 0 }
      { p with pinnedL := rest, unpinnedL := p.unpinnedL ++ [f2] }
    else { p with pinnedL := bumpPin p.pinnedL pn }

/-- A one-frame disk-backed pager over a one-page file whose page 0 holds
the (non-zero) payload 7. -/
def c5Pager : PagerState :=
  { hasFile := true, maxPageNum := 1,
    freeL := [{ pagenum := NOPAGE, dirty := false, pinCount := 0, data := 0 }],
    unpinnedL := [], pinnedL := [],
    file := fun pn => if pn = 0 then 7 else 0 }

/-- Read page 0 in, release it, then request page 5 (≥ maxPageNum); report
the final maxPageNum and the returned frame's payload and dirty flag. -/
def c5Run : Option (Int × Int × Bool) :=
  match getPage c5Pager 0 with
  | none => none
  | some (s1, _) =>
    let s2 := putPage s1 0
    match getPage s2 5 with
    | none => none
    | some (s3, f) => some (s3.maxPageNum, f.data, f.dirty)

/-- The pager state of the C5 run after reading page 0 and releasing it:
the single frame sits on the unpinned list holding page 0's payload. -/
def c5AfterRead : PagerState :=
  match getPage c5Pager 0 with
  | some (s1, _) => putPage s1 0
  | none => c5Pager

/-! ## B+-tree cursor and range scan (pkg/btree/cursor.go, node.go)

Only leaves carry data; for the range-scan claim we embed the leaf layer:
leaf pages indexed by page number, each with its sorted entries and a
right-sibling page number (negative = none).  LeafNode.search is the
binary search for the first index with key ≥ target (sort.Search), which
on a sorted list coincides with the first-match scan used here. -/

/-- A B+-tree leaf: entries plus right-sibling page number. -/
structure BLeaf where
  entries : List (Int × Int)
  rightSiblingPN : Int
deriving Repr, DecidableEq

/-- The leaf pages of a tree, indexed by page number; for the concrete
inputs below the root (page 0) is a leaf, so keyToNodeEntry resolves on
it directly (LeafNode.keyToNodeEntry returns the node and search
index). -/
abbrev BLeaves := List BLeaf

/-- LeafNode.search (node.go): the first index whose key is ≥ the target,
or numKeys if no key qualifies. -/
def leafSearch (l : BLeaf) (key : Int) : Nat :=
  l.entries.findIdx (fun p => key ≤ p.1)

/-- A cursor: current leaf page, cell number, end flag (cursor.go). -/
structure BCursor where
  leafPN : Nat
  cellnum : Nat
  isEnd : Bool
deriving Repr, DecidableEq

/-- BTreeIndex.TableFind (cursor.go): position a cursor at the first
index with key ≥ target in the leaf the key routes to (page 0 when the
root is a leaf); isEnd is set when that index is the insertion position
past the last entry. -/
def tableFind (t : BLeaves) (key : Int) : Option BCursor :=
  match t[0]? with
  | none => none
  | some leaf =>
    let cell := leafSearch leaf key
    some { leafPN := 0, cellnum := cell, isEnd := cell == leaf.entries.length }

/-- BTreeCursor.GetEntry (cursor.go): error when the cursor's isEnd flag
is set, otherwise the entry under the cursor. -/
def getEntryC (t : BLeaves) (c : BCursor) : Except String (Int × Int) :=
  if c.isEnd then Except.error "getEntry: entry is non-existent"
  else
    match t[c.leafPN]? with
    | none => Except.error "no page"
    | some leaf =>
      match leaf.entries[c.cellnum]? with
      | none => Except.error "no cell"
      | some e => Except.ok e

/-- BTreeCursor.StepForward (cursor.go): advance within the leaf, or move
to the right sibling (returning true with the cursor unchanged at the end
of the tree); empty siblings are skipped recursively (fuelled).  The
isEnd flag is never updated, exactly as in the source. -/
def stepForward (t : BLeaves) : Nat → BCursor → BCursor × Bool
  | 0, c => (c, true)
  | fuel + 1, c =>
    match t[c.leafPN]? with
    | none => (c, true)
    | some leaf =>
      if leaf.entries.length ≤ c.cellnum + 1 then
        let nextPN := leaf.rightSiblingPN
        if nextPN < 0 then (c, true)
        else
          match t[nextPN.toNat]? with
          | none => (c, true)
          | some nextLeaf =>
            let c2 : BCursor := { c with leafPN := nextPN.toNat, cellnum := 0 }
            if nextLeaf.entries.length == 0 then stepForward t fuel c2
            else (c2, false)
      else ({ c with cellnum := c.cellnum + 1 }, false)

/-- The do-while loop of TableFindRange (cursor.go lines 124-135): append
the entry under the cursor, step forward (the end signal is discarded, as
in the source), and stop only when the cursor has arrived exactly at the
end cursor's position.  Fuelled; none models the Go loop not having
terminated yet. -/
def rangeLoop (t : BLeaves) (endPN endCell : Nat) :
    Nat → BCursor → List (Int × Int) → Option (Except String (List (Int × Int)))
  | 0, _, _ => none
  | fuel + 1, c, acc =>
    match getEntryC t c with
    | Except.error m => some (Except.error m)
    | Except.ok e =>
      let acc2 := acc ++ [e]
      let c2 := (stepForward t (t.length + 1) c).1
      if c2.leafPN == endPN && c2.cellnum == endCell then
        some (Except.ok acc2)
      else rangeLoop t endPN endCell fuel c2 acc2

/-- BTreeIndex.TableFindRange (cursor.go lines 106-137): find the cursors
for startKey and endKey and run the collection loop between them. -/
def tableFindRange (t : BLeaves) (startKey endKey : Int) (fuel : Nat) :
    Option (Except String (List (Int × Int))) :=
  match tableFind t startKey with
  | none => none
  | some cur =>
    match tableFind t endKey with
    | none => none
    | some curEnd => rangeLoop t curEnd.leafPN curEnd.cellnum fuel cur []

/-! ## The hash invariant (verify.go IsHash) after Insert sequences (C4) -/

/-- The well-formedness of one bucket page pn with pattern p: the page
exists, its local depth is at most the global depth, its pattern is a
local-depth-bit value, the directory slots pointing at pn are exactly
those congruent to p modulo 2^depth, every entry's hash at the local
depth is p, and the stored keys are distinct (Insert refuses duplicates,
which is also what makes the Go redistribution loop's delete-by-key
behave as a filter). -/
def BucketWF (mix : Int → Nat) (s : HashState) (pn p : Nat) : Prop :=
  ∃ b, s.pages[pn]? = some b ∧
    b.depth ≤ s.table.depth ∧
    p < 2 ^ b.depth ∧
    (∀ i, i < s.table.buckets.length →
      (s.table.buckets[i]? = some pn ↔ i % 2 ^ b.depth = p)) ∧
    (∀ e ∈ b.entries, mix e.key % 2 ^ b.depth = p) ∧
    (b.entries.map HashEntry.key).Nodup

/-- Well-formedness of a hash index state: the directory has exactly
2^depth slots and every bucket page it references is well-formed for
some pattern. -/
def WF (mix : Int → Nat) (s : HashState) : Prop :=
  s.table.buckets.length = 2 ^ s.table.depth ∧
  ∀ pn ∈ s.table.buckets, ∃ p, BucketWF mix s pn p

/-- The precondition Split is called under: the bucket exists and is
well-formed with pattern p, and the hash argument agrees with p in the
low local-depth bits. -/
def SplitPre (mix : Int → Nat) (s : HashState) (bpn hash : Nat) (p : Nat) : Prop :=
  BucketWF mix s bpn p ∧
    ∀ b, s.pages[bpn]? = some b → hash % 2 ^ b.depth = p

/-- The state splitStep builds, with the starting slot already reduced to
the splitting bucket's pattern p and the (possibly extended) table t2 a
parameter; the bridging lemmas below connect it to splitStep itself. -/
def coreSt (mix : Int → Nat) (s : HashState) (b : HashBucket) (bpn p : Nat)
    (t2 : HashTable) : HashState :=
  let d2 := b.depth + 1
  let updSize := 2 ^ d2
  let movePred := fun (e : HashEntry) =>
    updSize / 2 ≤ Hasher mix e.key d2 % updSize
  let oldB : HashBucket :=
    { depth := d2, entries := b.entries.filter (fun e => ¬ movePred e) }
  let newB : HashBucket :=
    { depth := d2, entries := (b.entries.filter movePred).reverse }
  let dir2 := rewriteDir t2.buckets p updSize (2 ^ t2.depth - 1) bpn s.pages.length
  { table := { depth := t2.depth, buckets := dir2 }
    pages := s.pages.set bpn oldB ++ [newB] }

/-- The partition of a splitting bucket that stays in place: entries whose
hash at the new local depth keeps its top bit clear. -/
def oldBucketOf (mix : Int → Nat) (b : HashBucket) : HashBucket :=
  { depth := b.depth + 1,
    entries := b.entries.filter (fun e =>
      ¬ (2 ^ (b.depth + 1) / 2 ≤ Hasher mix e.key (b.depth + 1) % 2 ^ (b.depth + 1))) }

/-- The partition that moves to the fresh bucket, in the (reversed) order
the Go redistribution loop inserts it. -/
def newBucketOf (mix : Int → Nat) (b : HashBucket) : HashBucket :=
  { depth := b.depth + 1,
    entries := (b.entries.filter (fun e =>
      2 ^ (b.depth + 1) / 2 ≤ Hasher mix e.key (b.depth + 1) % 2 ^ (b.depth + 1))).reverse }

/-- The identity-style mixing hash used for the concrete witness run. -/
def identMix : Int → Nat := fun k => k.toNat

/-- The state produced by inserting (0,1) and (4,2) with BUCKETSIZE 2
under identMix: the two keys collide in the low two bits, so the second
insert splits bucket 0 and extends the directory to depth 3. -/
def c4State : HashState :=
  { table := { depth := 3, buckets := [0, 1, 2, 3, 4, 1, 2, 3] }
    pages := [{ depth := 3, entries := [{ key := 0, value := 1 }] },
      { depth := 2, entries := [] }, { depth := 2, entries := [] },
      { depth := 2, entries := [] },
      { depth := 3, entries := [{ key := 4, value := 2 }] }] }

/-! ## Theorems -/

theorem updateEntries_of_not_mem (key value : Int) :
    ∀ (es : List HashEntry), (∀ e ∈ es, e.key ≠ key) →
      updateEntries key value es = none := by
  intro es
  induction es with
  | nil => intro _; rfl
  | cons e es ih =>
    intro h
    have hk : e.key ≠ key := h e (List.mem_cons_self e es)
    have : (e.key == key) = false := by
      simp [hk]
    simp [updateEntries, this, ih (fun x hx => h x (List.mem_cons_of_mem e hx))]

theorem deleteEntries_of_not_mem (key : Int) :
    ∀ (es : List HashEntry), (∀ e ∈ es, e.key ≠ key) →
      deleteEntries key es = none := by
  intro es
  induction es with
  | nil => intro _; rfl
  | cons e es ih =>
    intro h
    have hk : e.key ≠ key := h e (List.mem_cons_self e es)
    have : (e.key == key) = false := by
      simp [hk]
    simp [deleteEntries, this, ih (fun x hx => h x (List.mem_cons_of_mem e hx))]

/-- C10: for every hash bucket and key k absent from it, Update(k,v) and
Delete(k) both return a key-not-found error and leave the bucket (its
numKeys and every stored entry) unchanged. -/
theorem bucket_update_delete_absent_key (b : HashBucket) (k v : Int)
    (habs : ∀ e ∈ b.entries, e.key ≠ k) :
    b.update k v = (b, some "key not found, update aborted") ∧
      b.delete k = (b, some "key not found, delete aborted") := by
  constructor
  · unfold HashBucket.update
    rw [updateEntries_of_not_mem k v b.entries habs]
  · unfold HashBucket.delete
    rw [deleteEntries_of_not_mem k b.entries habs]

/-- Witness for C10 at a concrete bucket: the bucket holds only key 1, so
key 2 is absent and both calls fail without touching the bucket. -/
theorem bucket_update_delete_absent_key_witness :
    HashBucket.update { depth := 2, entries := [{ key := 1, value := 10 }] } 2 7 =
        ({ depth := 2, entries := [{ key := 1, value := 10 }] },
          some "key not found, update aborted") ∧
      HashBucket.delete { depth := 2, entries := [{ key := 1, value := 10 }] } 2 =
        ({ depth := 2, entries := [{ key := 1, value := 10 }] },
          some "key not found, delete aborted") :=
  bucket_update_delete_absent_key
    { depth := 2, entries := [{ key := 1, value := 10 }] } 2 7 (by decide)

/-- C1 counterexample: on a freshly created table (shown here with the
mixing hash that sends every key to 0; the same computation goes through
for any mix), Find(42) misses in its bucket and the completed table.go
returns the nil entry with a nil error, i.e. it reports success without
an entry instead of failing with NOT_FOUND. -/
theorem find_missing_key_returns_nil_nil :
    HashState.find (fun _ => 0) newHashTable 42 = (none, none) := by
  decide

/-- C6 counterexample: the graph 0→1, 0→2, 2→0 contains the directed
cycle 0→2→0, yet DetectCycle returns false, because dfs only ever
follows the first outgoing edge of vertex 0 (which leads to the dead end
1).  This contradicts the claim (and the function's own doc comment)
that DetectCycle returns true iff a cycle exists. -/
theorem detectCycle_misses_cycle :
    detectCycle [(0, 1), (0, 2), (2, 0)] = false ∧
      isClosedWalk [(0, 1), (0, 2), (2, 0)] [0, 2, 0] = true := by
  decide

/-- C8: a transaction that already holds the resource gets a no-op nil
for the same or a weaker request, gets an UPGRADE_FORBIDDEN error for a
SHARED to EXCLUSIVE request, and in both cases the whole manager state
(in particular its held mode) is unchanged. -/
theorem lock_already_held (st : TMState) (clientId : Nat) (tableName : String)
    (key : Int) (lType : LockType) (tran : TMTransaction) (held : LockType)
    (hfind : st.transactions.find? (fun t => t.clientId == clientId) = some tran)
    (hheld : (tran.resources.find? (fun p => p.1 == (tableName, key))).map Prod.snd
      = some held) :
    tmLock st clientId tableName key lType =
      (st,
        if lType == LockType.wLock && held == LockType.rLock then
          some "requesting write lock over existing read lock"
        else none) := by
  unfold tmLock
  rw [hfind]
  simp only [hheld]
  by_cases h : (lType == LockType.wLock && held == LockType.rLock) = true
  · rw [if_pos h, if_pos h]
  · rw [if_neg h, if_neg h]

/-- Witness for C8: a client holding a SHARED lock on (t,1); a repeated
SHARED request is a no-op nil and an EXCLUSIVE request fails, both leaving
the state untouched. -/
theorem lock_already_held_witness :
    tmLock { transactions := [{ clientId := 7, resources := [(("t", 1), LockType.rLock)] }],
             graphEdges := [] } 7 "t" 1 LockType.rLock =
      ({ transactions := [{ clientId := 7, resources := [(("t", 1), LockType.rLock)] }],
         graphEdges := [] }, none) ∧
    tmLock { transactions := [{ clientId := 7, resources := [(("t", 1), LockType.rLock)] }],
             graphEdges := [] } 7 "t" 1 LockType.wLock =
      ({ transactions := [{ clientId := 7, resources := [(("t", 1), LockType.rLock)] }],
         graphEdges := [] }, some "requesting write lock over existing read lock") := by
  constructor
  · exact lock_already_held _ 7 "t" 1 LockType.rLock
      { clientId := 7, resources := [(("t", 1), LockType.rLock)] }
      LockType.rLock (by decide) (by decide)
  · exact lock_already_held _ 7 "t" 1 LockType.wLock
      { clientId := 7, resources := [(("t", 1), LockType.rLock)] }
      LockType.rLock (by decide) (by decide)

/-- C7 counterexample: a request by client 2 with one conflicting holder 1
reaches the blocking lock-manager call with an empty waits-for graph: the
completed Lock removes the edges right after cycle detection, before the
request blocks, so a concurrent deadlock detection cannot see the wait.
The claim that the edges remain until the lock is granted is false for
this code path. -/
theorem waits_for_edges_removed_before_blocking :
    (tmLockSteps [1] 2).contains (LockStep.addEdge 1 2) = true ∧
      graphWhenPending [1] 2 = [] := by
  decide

/-- C2 counterexample: transaction 1 inserted (1,10) and then updated it
to 20 before the crash; after the redo pass table t holds (1,20).  The
draft Recover walks the records with an ascending loop index, so it
undoes the INSERT first (deleting key 1) and then the UPDATE (which,
finding the key absent, repairs by inserting oldval 10): key 1 ends up
present with value 10.  Walking in reverse, as the claim states, leaves
key 1 absent.  The code's undo pass is therefore not the claimed
reverse walk. -/
theorem undo_pass_walks_forward_not_reverse :
    undoPassFwd [1] [("t", [(1, 20)])]
        [LogRec.edit { id := 1, tablename := "t", action := Action.insertAct,
                       key := 1, oldval := 0, newval := 10 },
         LogRec.edit { id := 1, tablename := "t", action := Action.updateAct,
                       key := 1, oldval := 10, newval := 20 }] =
      Except.ok [("t", [(1, 10)])] ∧
    undoPassRev [1] [("t", [(1, 20)])]
        [LogRec.edit { id := 1, tablename := "t", action := Action.insertAct,
                       key := 1, oldval := 0, newval := 10 },
         LogRec.edit { id := 1, tablename := "t", action := Action.updateAct,
                       key := 1, oldval := 10, newval := 20 }] =
      Except.ok [("t", [])] := by
  constructor
  · rfl
  · rfl

theorem dbGet_dbSet (tbl : String) (t2 : List (Int × Int)) :
    ∀ (d : Db) (t : List (Int × Int)), dbGet d tbl = some t →
      dbGet (dbSet d tbl t2) tbl = some t2 := by
  intro d
  induction d with
  | nil => intro t h; simp [dbGet] at h
  | cons p ps ih =>
    intro t h
    by_cases hp : (p.1 == tbl) = true
    · simp [dbGet, dbSet, List.find?, hp]
    · have h2 : dbGet ps tbl = some t := by
        simpa [dbGet, List.find?, hp] using h
      simpa [dbGet, dbSet, List.find?, hp] using ih t h2

theorem tblFind_tblSet (k v : Int) :
    ∀ (t : List (Int × Int)), (tblFind t k).isSome →
      tblFind (tblSet k v t) k = some v := by
  intro t
  induction t with
  | nil => intro h; simp [tblFind] at h
  | cons p ps ih =>
    intro h
    by_cases hp : (p.1 == k) = true
    · simp [tblFind, tblSet, List.find?, hp]
    · simp only [tblFind, tblSet, List.find?, hp, Bool.false_eq_true,
        if_false] at *
      exact ih h

theorem tblFind_append_absent (k v : Int) :
    ∀ (t : List (Int × Int)), tblFind t k = none →
      tblFind (t ++ [(k, v)]) k = some v := by
  intro t
  induction t with
  | nil => intro _; simp [tblFind, List.find?]
  | cons p ps ih =>
    intro h
    by_cases hp : (p.1 == k) = true
    · simp [tblFind, List.find?, hp] at h
    · simp only [tblFind, List.find?, hp, List.cons_append] at *
      exact ih h

/-- C3 (amended): on the redo pass, an INSERT whose key is already present
repairs to UPDATE(newval) and an UPDATE whose key is absent repairs to
INSERT(newval); but a DELETE whose key is already absent propagates the
NOT_FOUND error instead of succeeding silently (the DELETE branch of Redo
has no fallback). -/
theorem redo_repairs_insert_update_not_delete (d : Db) (tbl : String)
    (tid : Nat) (k vold vnew : Int) (t : List (Int × Int))
    (ht : dbGet d tbl = some t) :
    ((dbFind d tbl k).isSome →
      redo d (LogRec.edit ⟨tid, tbl, Action.insertAct, k, vold, vnew⟩) =
        Except.ok (dbSet d tbl (tblSet k vnew t)) ∧
      dbFind (dbSet d tbl (tblSet k vnew t)) tbl k = some vnew) ∧
    (dbFind d tbl k = none →
      redo d (LogRec.edit ⟨tid, tbl, Action.updateAct, k, vold, vnew⟩) =
        Except.ok (dbSet d tbl (t ++ [(k, vnew)])) ∧
      dbFind (dbSet d tbl (t ++ [(k, vnew)])) tbl k = some vnew) ∧
    (dbFind d tbl k = none →
      redo d (LogRec.edit ⟨tid, tbl, Action.deleteAct, k, vold, vnew⟩) =
        Except.error "not found") := by
  have hdf : dbFind d tbl k = tblFind t k := by
    simp [dbFind, ht]
  refine ⟨?_, ?_, ?_⟩
  · intro hpres
    rw [hdf] at hpres
    constructor
    · simp [redo, handleInsert, handleUpdate, ht, hpres]
    · simp [dbFind, dbGet_dbSet tbl _ d t ht, tblFind_tblSet k vnew t hpres]
  · intro habs
    rw [hdf] at habs
    constructor
    · simp [redo, handleUpdate, handleInsert, ht, habs]
    · simp [dbFind, dbGet_dbSet tbl _ d t ht, tblFind_append_absent k vnew t habs]
  · intro habs
    rw [hdf] at habs
    simp [redo, handleDelete, ht, habs]

/-- C3 counterexample: redoing a DELETE record for key 5 against a table
that does not hold key 5 returns the NOT_FOUND error; the claim says it
succeeds silently. -/
theorem redo_delete_absent_key_errors :
    redo [("t", [])] (LogRec.edit ⟨1, "t", Action.deleteAct, 5, 0, 0⟩) =
      Except.error "not found" := by
  rfl

/-- Witness for the amended C3 at a concrete database: table t holds
(1,10); an INSERT record for key 1 repairs to an update, an UPDATE record
for key 5 repairs to an insert, and a DELETE record for key 5 errors. -/
theorem redo_repairs_insert_update_not_delete_witness :
    (redo [("t", [(1, 10)])] (LogRec.edit ⟨1, "t", Action.insertAct, 1, 0, 99⟩) =
      Except.ok [("t", [(1, 99)])]) ∧
    (redo [("t", [(1, 10)])] (LogRec.edit ⟨1, "t", Action.updateAct, 5, 0, 50⟩) =
      Except.ok [("t", [(1, 10), (5, 50)])]) ∧
    (redo [("t", [(1, 10)])] (LogRec.edit ⟨1, "t", Action.deleteAct, 5, 0, 0⟩) =
      Except.error "not found") := by
  have h := redo_repairs_insert_update_not_delete [("t", [(1, 10)])] "t" 1 1 0 99
    [(1, 10)] (by decide)
  have h2 := redo_repairs_insert_update_not_delete [("t", [(1, 10)])] "t" 1 5 0 50
    [(1, 10)] (by decide)
  refine ⟨?_, ?_, ?_⟩
  · exact (h.1 (by decide)).1
  · exact (h2.2.1 (by decide)).1
  · exact h2.2.2 (by decide)

/-- C5 counterexample: requesting page 5 on a pager with maxPageNum 1
recycles the evicted frame: the returned page still holds the old payload
7 (no zero-filling happens) and maxPageNum is merely incremented to 2,
not advanced to pn + 1 = 6.  The claim as stated is false at this
input. -/
theorem getPage_beyond_max_counterexample :
    c5Run = some (2, 7, true) ∧ ((2 : Int) ≠ 5 + 1 ∧ (7 : Int) ≠ 0) := by
  constructor
  · rfl
  · decide

/-- C5 (amended): for pn ≥ maxPageNum (and non-negative, not resident),
GetPage(pn) returns a page marked dirty (so it is written even if
unmodified), increments maxPageNum by one — which equals pn + 1 exactly
when pn == maxPageNum — and leaves the recycled frame's buffer as NewPage
found it (zero-filled only when the frame was a fresh one from the free
list). -/
theorem getPage_new_page_amended (p : PagerState) (pn : Int)
    (hneg : ¬ pn < 0) (hmax : p.maxPageNum ≤ pn)
    (hpin : findFrame p.pinnedL pn = none)
    (hunp : extractFrame p.unpinnedL pn = none)
    (s2 : PagerState) (f : PFrame)
    (hres : getPage p pn = some (s2, f)) :
    f.dirty = true ∧ s2.maxPageNum = p.maxPageNum + 1 ∧
      ∃ p1 f1, newPage p pn = some (p1, f1) ∧ f.data = f1.data := by
  unfold getPage at hres
  rw [if_neg hneg, hpin] at hres
  dsimp only at hres
  rw [hunp] at hres
  dsimp only at hres
  match hnew : newPage p pn with
  | none => rw [hnew] at hres; cases hres
  | some (p1, f1) =>
    rw [hnew] at hres
    dsimp only at hres
    rw [if_pos hmax] at hres
    have hmx : p1.maxPageNum = p.maxPageNum := by
      unfold newPage at hnew
      match hf : p.freeL with
      | g :: rest =>
        rw [hf] at hnew
        dsimp only at hnew
        cases hnew
        rfl
      | [] =>
        rw [hf] at hnew
        dsimp only at hnew
        match hu : p.unpinnedL with
        | u :: rest =>
          rw [hu] at hnew
          dsimp only at hnew
          by_cases hhf : p.hasFile = true
          · rw [if_pos hhf] at hnew
            cases hnew
            rfl
          · rw [if_neg hhf] at hnew
            cases hnew
        | [] =>
          rw [hu] at hnew
          dsimp only at hnew
          cases hnew
    cases hres
    refine ⟨rfl, ?_, p1, f1, rfl, rfl⟩
    show p1.maxPageNum + 1 = p.maxPageNum + 1
    rw [hmx]

/-- Witness for the amended C5: on the concrete one-frame pager, GetPage(5)
returns a dirty page whose buffer kept the recycled contents, with
maxPageNum going from 1 to 2. -/
theorem getPage_new_page_amended_witness :
    ∃ s2 f, getPage c5AfterRead 5 = some (s2, f) ∧ f.dirty = true ∧
      s2.maxPageNum = c5AfterRead.maxPageNum + 1 ∧
      ∃ p1 f1, newPage c5AfterRead 5 = some (p1, f1) ∧ f.data = f1.data := by
  have hres : (getPage c5AfterRead 5).isSome = true := by rfl
  obtain ⟨⟨s2, f⟩, h⟩ := Option.isSome_iff_exists.mp hres
  exact ⟨s2, f, h,
    getPage_new_page_amended c5AfterRead 5 (by decide) (by decide) rfl rfl s2 f h⟩

/-- C9 counterexample: on the single-leaf tree holding keys 1 and 2,
TableFindRange(5, 7) — an interval containing no key, with 5 ≤ 7 — places
the start cursor at the end-insertion position; the do-while loop calls
GetEntry before any bounds check, so the call fails with the getEntry
error instead of producing the empty list the claim requires.  (For other
empty intervals, e.g. lo = hi = 1, the loop never reaches its exit
condition at all and the Go code loops forever.) -/
theorem tableFindRange_empty_interval_errors :
    tableFindRange [{ entries := [(1, 10), (2, 20)], rightSiblingPN := -1 }] 5 7 9 =
      some (Except.error "getEntry: entry is non-existent") := by
  rfl

theorem rangeLoop_two_leaf_stuck (fuel : Nat) (acc : List (Int × Int)) :
    rangeLoop [{ entries := [(1, 10), (2, 20)], rightSiblingPN := -1 }] 0 0 fuel
      { leafPN := 0, cellnum := 1, isEnd := false } acc = none := by
  induction fuel generalizing acc with
  | zero => rfl
  | succ n ih => exact ih (acc ++ [(2, 20)])

/-- The other face of C9 on the same tree: for lo = hi = 1 (also an empty
interval) the loop appends the entries under the cursor and never comes
back to the start position, so it never terminates: for every fuel the
loop is still running — the Go code never returns at all. -/
theorem tableFindRange_equal_bounds_diverges (fuel : Nat) :
    tableFindRange [{ entries := [(1, 10), (2, 20)], rightSiblingPN := -1 }] 1 1 fuel =
      none := by
  match fuel with
  | 0 => rfl
  | n + 1 => exact rangeLoop_two_leaf_stuck n [(1, 10)]

theorem rewriteDirLoop_length (bpn npn updSize tableSize : Nat) :
    ∀ fuel i dir,
      (rewriteDirLoop bpn npn updSize tableSize i fuel dir).length = dir.length := by
  intro fuel
  induction fuel with
  | zero => intro i dir; rfl
  | succ n ih =>
    intro i dir
    unfold rewriteDirLoop
    by_cases h : i ≤ tableSize
    · rw [if_pos h, ih]
      simp
    · rw [if_neg h]

theorem rewriteDirLoop_get (bpn npn updSize tableSize : Nat)
    (hhalf : 0 < updSize / 2) (hu : updSize / 2 + updSize / 2 = updSize) :
    ∀ fuel i (dir : List Nat) j, tableSize < i + fuel → j < dir.length →
      (rewriteDirLoop bpn npn updSize tableSize i fuel dir)[j]? =
        (if i ≤ j ∧ j ≤ tableSize ∧ (j - i) % updSize = 0 then some bpn
         else if i + updSize / 2 ≤ j ∧ j ≤ tableSize + updSize / 2 ∧
             (j - (i + updSize / 2)) % updSize = 0 then some npn
         else dir[j]?) := by
  have hupos : 0 < updSize := by omega
  intro fuel
  induction fuel with
  | zero =>
    intro i dir j hfuel hj
    have h1 : ¬ (i ≤ j ∧ j ≤ tableSize ∧ (j - i) % updSize = 0) := by omega
    have h2 : ¬ (i + updSize / 2 ≤ j ∧ j ≤ tableSize + updSize / 2 ∧
        (j - (i + updSize / 2)) % updSize = 0) := by omega
    rw [if_neg h1, if_neg h2]
    rfl
  | succ n ih =>
    intro i dir j hfuel hj
    unfold rewriteDirLoop
    by_cases hts : i ≤ tableSize
    · rw [if_pos hts]
      have hj2 : j < ((dir.set i bpn).set (i + updSize / 2) npn).length := by
        simpa using hj
      rw [ih (i + updSize) ((dir.set i bpn).set (i + updSize / 2) npn) j
        (by omega) hj2]
      by_cases hji : j = i
      · subst hji
        have c1 : j ≤ j ∧ j ≤ tableSize ∧ (j - j) % updSize = 0 := by
          refine ⟨le_refl j, hts, by simp⟩
        rw [if_pos c1]
        have c2 : ¬ (j + updSize ≤ j ∧ j ≤ tableSize ∧ (j - (j + updSize)) % updSize = 0) := by
          omega
        rw [if_neg c2]
        have c3 : ¬ (j + updSize + updSize / 2 ≤ j ∧
            j ≤ tableSize + updSize / 2 ∧
            (j - (j + updSize + updSize / 2)) % updSize = 0) := by
          omega
        rw [if_neg c3]
        rw [List.getElem?_set_ne (by omega), List.getElem?_set_eq_of_lt _ (by simpa using hj)]
      · by_cases hjh : j = i + updSize / 2
        · subst hjh
          have c1 : ¬ (i ≤ i + updSize / 2 ∧ i + updSize / 2 ≤ tableSize ∧
              (i + updSize / 2 - i) % updSize = 0) := by
            have : (i + updSize / 2 - i) % updSize = updSize / 2 := by
              have h1 : i + updSize / 2 - i = updSize / 2 := by omega
              rw [h1, Nat.mod_eq_of_lt (by omega)]
            omega
          rw [if_neg c1]
          have c2 : i + updSize / 2 ≤ i + updSize / 2 ∧
              i + updSize / 2 ≤ tableSize + updSize / 2 ∧
              (i + updSize / 2 - (i + updSize / 2)) % updSize = 0 := by
            refine ⟨le_refl _, by omega, by simp⟩
          rw [if_pos c2]
          have c3 : ¬ (i + updSize ≤ i + updSize / 2 ∧
              i + updSize / 2 ≤ tableSize ∧
              (i + updSize / 2 - (i + updSize)) % updSize = 0) := by
            omega
          rw [if_neg c3]
          have c4 : ¬ (i + updSize + updSize / 2 ≤ i + updSize / 2 ∧
              i + updSize / 2 ≤ tableSize + updSize / 2 ∧
              (i + updSize / 2 - (i + updSize + updSize / 2)) % updSize = 0) := by
            omega
          rw [if_neg c4]
          rw [List.getElem?_set_eq_of_lt _ (by simpa using hj)]
        · rw [List.getElem?_set_ne (by omega), List.getElem?_set_ne (by omega)]
          have e1 : (i + updSize ≤ j ∧ j ≤ tableSize ∧ (j - (i + updSize)) % updSize = 0) ↔
              (i ≤ j ∧ j ≤ tableSize ∧ (j - i) % updSize = 0) := by
            constructor
            · rintro ⟨h1, h2, h3⟩
              refine ⟨by omega, h2, ?_⟩
              have hd : j - i = (j - (i + updSize)) + updSize := by omega
              rw [hd, Nat.add_mod, h3, Nat.mod_self]
              simp
            · rintro ⟨h1, h2, h3⟩
              have hlt : updSize ≤ j - i := by
                rcases Nat.lt_or_ge (j - i) updSize with hc | hc
                · rw [Nat.mod_eq_of_lt hc] at h3
                  omega
                · exact hc
              refine ⟨by omega, h2, ?_⟩
              have hd : j - i = (j - (i + updSize)) + updSize := by omega
              rw [hd, Nat.add_mod, Nat.mod_self] at h3
              simpa using h3
          have e2 : (i + updSize + updSize / 2 ≤ j ∧ j ≤ tableSize + updSize / 2 ∧
              (j - (i + updSize + updSize / 2)) % updSize = 0) ↔
              (i + updSize / 2 ≤ j ∧ j ≤ tableSize + updSize / 2 ∧
                (j - (i + updSize / 2)) % updSize = 0) := by
            constructor
            · rintro ⟨h1, h2, h3⟩
              refine ⟨by omega, h2, ?_⟩
              have hd : j - (i + updSize / 2) =
                  (j - (i + updSize + updSize / 2)) + updSize := by omega
              rw [hd, Nat.add_mod, h3, Nat.mod_self]
              simp
            · rintro ⟨h1, h2, h3⟩
              have hlt : updSize ≤ j - (i + updSize / 2) := by
                rcases Nat.lt_or_ge (j - (i + updSize / 2)) updSize with hc | hc
                · rw [Nat.mod_eq_of_lt hc] at h3
                  have hor : j = i + updSize / 2 ∨ (0 < j - (i + updSize / 2) ∧
                      j - (i + updSize / 2) < updSize) := by omega
                  rcases hor with h4 | h4
                  · exact absurd h4 hjh
                  · omega
                · exact hc
              refine ⟨by omega, h2, ?_⟩
              have hd : j - (i + updSize / 2) =
                  (j - (i + updSize + updSize / 2)) + updSize := by omega
              rw [hd, Nat.add_mod, Nat.mod_self] at h3
              simpa using h3
          rw [if_congr e1 rfl (if_congr e2 rfl rfl)]
    · rw [if_neg hts]
      have c1 : ¬ (i ≤ j ∧ j ≤ tableSize ∧ (j - i) % updSize = 0) := by omega
      have c2 : ¬ (i + updSize / 2 ≤ j ∧ j ≤ tableSize + updSize / 2 ∧
          (j - (i + updSize / 2)) % updSize = 0) := by omega
      rw [if_neg c1, if_neg c2]

theorem sub_mod_zero_iff (u s j : Nat) (hs : s < u) :
    (s ≤ j ∧ (j - s) % u = 0) ↔ j % u = s := by
  constructor
  · rintro ⟨h1, h2⟩
    obtain ⟨k, hk⟩ := Nat.dvd_of_mod_eq_zero h2
    have hj : j = u * k + s := by omega
    rw [hj, Nat.mul_add_mod, Nat.mod_eq_of_lt hs]
  · intro h
    have h1 : s ≤ j := h ▸ Nat.mod_le j u
    refine ⟨h1, ?_⟩
    have hd : j = u * (j / u) + j % u := (Nat.div_add_mod j u).symm
    have hj : j - s = u * (j / u) := by omega
    rw [hj]
    exact Nat.mul_mod_right u (j / u)

theorem rewriteDir_get (dir : List Nat) (startNum updSize tableSize bpn npn j : Nat)
    (hhalf : 0 < updSize / 2) (hu : updSize / 2 + updSize / 2 = updSize)
    (hts : dir.length = tableSize + 1) (hj : j < dir.length)
    (hs : startNum < updSize / 2) :
    (rewriteDir dir startNum updSize tableSize bpn npn)[j]? =
      (if j % updSize = startNum then some bpn
       else if j % updSize = startNum + updSize / 2 then some npn
       else dir[j]?) := by
  have hupos : 0 < updSize := by omega
  rw [rewriteDir, rewriteDirLoop_get bpn npn updSize tableSize hhalf hu
    (tableSize + 1) startNum dir j (by omega) hj]
  have e1 : (startNum ≤ j ∧ j ≤ tableSize ∧ (j - startNum) % updSize = 0) ↔
      j % updSize = startNum := by
    rw [← sub_mod_zero_iff updSize startNum j (by omega)]
    constructor
    · rintro ⟨a, _, c⟩; exact ⟨a, c⟩
    · rintro ⟨a, c⟩; exact ⟨a, by omega, c⟩
  have e2 : (startNum + updSize / 2 ≤ j ∧ j ≤ tableSize + updSize / 2 ∧
      (j - (startNum + updSize / 2)) % updSize = 0) ↔
      j % updSize = startNum + updSize / 2 := by
    rw [← sub_mod_zero_iff updSize (startNum + updSize / 2) j (by omega)]
    constructor
    · rintro ⟨a, _, c⟩; exact ⟨a, c⟩
    · rintro ⟨a, c⟩; exact ⟨a, by omega, c⟩
  rw [if_congr e1 rfl (if_congr e2 rfl rfl)]

theorem rewriteDir_length (dir : List Nat) (startNum updSize tableSize bpn npn : Nat) :
    (rewriteDir dir startNum updSize tableSize bpn npn).length = dir.length := by
  rw [rewriteDir, rewriteDirLoop_length]

theorem getElem?_double (dir : List Nat) (j : Nat) (hL : 0 < dir.length)
    (hj : j < dir.length + dir.length) :
    (dir ++ dir)[j]? = dir[j % dir.length]? := by
  rw [List.getElem?_append]
  by_cases h : j < dir.length
  · rw [if_pos h, Nat.mod_eq_of_lt h]
  · rw [if_neg h]
    have h1 : dir.length ≤ j := by omega
    have h2 : j % dir.length = j - dir.length := by
      rw [Nat.mod_eq_sub_mod h1, Nat.mod_eq_of_lt (by omega)]
    rw [h2]

/-- Extending the directory (ExtendTable) preserves each bucket's
slot-set characterization: the doubled directory still points slot i at
pn exactly when i is congruent to the pattern modulo the bucket's
local-depth block. -/
theorem extend_char (dir : List Nat) (D dq pq pn : Nat)
    (hlen : dir.length = 2 ^ D) (hdq : dq ≤ D)
    (hchar : ∀ i, i < dir.length → (dir[i]? = some pn ↔ i % 2 ^ dq = pq)) :
    ∀ i, i < (dir ++ dir).length →
      ((dir ++ dir)[i]? = some pn ↔ i % 2 ^ dq = pq) := by
  intro i hi
  rw [List.length_append] at hi
  have hL : 0 < dir.length := by
    rw [hlen]
    exact Nat.pos_pow_of_pos D (by norm_num)
  rw [getElem?_double dir i hL hi]
  rw [hchar (i % dir.length) (Nat.mod_lt i hL)]
  have hdvd : 2 ^ dq ∣ dir.length := hlen ▸ pow_dvd_pow 2 hdq
  rw [Nat.mod_mod_of_dvd i hdvd]

theorem pow_succ_div_two (d : Nat) : 2 ^ (d + 1) / 2 = 2 ^ d := by
  rw [pow_succ]
  exact Nat.mul_div_cancel _ (by norm_num)

theorem adjust_eq (d hash p : Nat) (hmod : hash % 2 ^ d = p) :
    (if 2 ^ (d + 1) / 2 ≤ hash % 2 ^ (d + 1) then
      hash % 2 ^ (d + 1) - 2 ^ (d + 1) / 2
     else hash % 2 ^ (d + 1)) = p := by
  rw [pow_succ_div_two]
  have h0 : hash % 2 ^ (d + 1) % 2 ^ d = hash % 2 ^ d :=
    Nat.mod_mod_of_dvd _ (pow_dvd_pow 2 (Nat.le_succ d))
  set r := hash % 2 ^ (d + 1) with hr
  have hrlt : r < 2 ^ (d + 1) := Nat.mod_lt _ (by positivity)
  have hrm : r % 2 ^ d = p := by rw [h0, hmod]
  by_cases hc : 2 ^ d ≤ r
  · rw [if_pos hc]
    have h1 : r - 2 ^ d < 2 ^ d := by
      rw [pow_succ] at hrlt
      omega
    have h2 : (r - 2 ^ d) % 2 ^ d = r % 2 ^ d := by
      conv_rhs => rw [show r = (r - 2 ^ d) + 2 ^ d by omega]
      rw [Nat.add_mod_right]
    rw [Nat.mod_eq_of_lt h1] at h2
    omega
  · rw [if_neg hc]
    push_neg at hc
    rw [← hrm, Nat.mod_eq_of_lt hc]

theorem low_ext (d r p : Nat) (hr : r < 2 ^ (d + 1)) (hp : r % 2 ^ d = p) :
    r = p ∨ r = p + 2 ^ d := by
  by_cases hc : r < 2 ^ d
  · left
    rw [← hp, Nat.mod_eq_of_lt hc]
  · right
    push_neg at hc
    have h1 : r - 2 ^ d < 2 ^ d := by
      rw [pow_succ] at hr
      omega
    have h2 : (r - 2 ^ d) % 2 ^ d = r % 2 ^ d := by
      conv_rhs => rw [show r = (r - 2 ^ d) + 2 ^ d by omega]
      rw [Nat.add_mod_right]
    rw [Nat.mod_eq_of_lt h1] at h2
    omega

theorem splitStep_st_eq (mix : Int → Nat) (s : HashState) (b : HashBucket)
    (bpn hash p : Nat) (hmod : hash % 2 ^ b.depth = p) :
    (splitStep mix s b bpn hash).st =
      coreSt mix s b bpn p
        (if s.table.depth < b.depth + 1 then s.table.extendTable else s.table) := by
  unfold splitStep coreSt
  dsimp only
  rw [adjust_eq b.depth hash p hmod]

theorem splitStep_startNum_eq (mix : Int → Nat) (s : HashState) (b : HashBucket)
    (bpn hash p : Nat) (hmod : hash % 2 ^ b.depth = p) :
    (splitStep mix s b bpn hash).startNum = p := by
  unfold splitStep
  dsimp only
  rw [adjust_eq b.depth hash p hmod]

theorem splitStep_half_eq (mix : Int → Nat) (s : HashState) (b : HashBucket)
    (bpn hash : Nat) :
    (splitStep mix s b bpn hash).half = 2 ^ b.depth := by
  unfold splitStep
  dsimp only
  rw [pow_succ_div_two]

theorem getElem?_some_lt {α : Type} (l : List α) (i : Nat) (a : α)
    (h : l[i]? = some a) : i < l.length := by
  by_contra hc
  rw [List.getElem?_eq_none (by omega)] at h
  cases h

theorem mem_of_some_getElem? {α : Type} (l : List α) (i : Nat) (a : α)
    (h : l[i]? = some a) : a ∈ l := by
  have hi : i < l.length := getElem?_some_lt l i a h
  rw [List.getElem?_eq_getElem hi] at h
  exact (Option.some.inj h) ▸ List.getElem_mem hi

theorem mem_exists_getElem? {α : Type} (l : List α) (a : α) (h : a ∈ l) :
    ∃ i, i < l.length ∧ l[i]? = some a := by
  obtain ⟨i, hi, he⟩ := List.mem_iff_getElem.mp h
  exact ⟨i, hi, by rw [List.getElem?_eq_getElem hi, he]⟩

/-- The heart of the split invariant: under the bucket and table
hypotheses, the state built by splitStep is well-formed, the old and new
buckets are well-formed with patterns p and p + 2^d, the page store grew
by one, and every other bucket's well-formedness is untouched. -/
theorem split_core (mix : Int → Nat) (s : HashState) (b : HashBucket)
    (bpn p : Nat) (t2 : HashTable)
    (hWFlen : s.table.buckets.length = 2 ^ s.table.depth)
    (hWFall : ∀ pn ∈ s.table.buckets, ∃ pq, BucketWF mix s pn pq)
    (hb : s.pages[bpn]? = some b)
    (hdep : b.depth ≤ s.table.depth)
    (hplt : p < 2 ^ b.depth)
    (hchar : ∀ i, i < s.table.buckets.length →
      (s.table.buckets[i]? = some bpn ↔ i % 2 ^ b.depth = p))
    (hent : ∀ e ∈ b.entries, mix e.key % 2 ^ b.depth = p)
    (hnodup : (b.entries.map HashEntry.key).Nodup)
    (ht2len : t2.buckets.length = 2 ^ t2.depth)
    (ht2d : b.depth + 1 ≤ t2.depth)
    (ht2dD : s.table.depth ≤ t2.depth)
    (ht2char : ∀ q dq pq, dq ≤ s.table.depth →
      (∀ i, i < s.table.buckets.length →
        (s.table.buckets[i]? = some q ↔ i % 2 ^ dq = pq)) →
      ∀ i, i < t2.buckets.length → (t2.buckets[i]? = some q ↔ i % 2 ^ dq = pq))
    (ht2mem : ∀ q, q ∈ t2.buckets → q ∈ s.table.buckets) :
    WF mix (coreSt mix s b bpn p t2) ∧
    BucketWF mix (coreSt mix s b bpn p t2) bpn p ∧
    BucketWF mix (coreSt mix s b bpn p t2) s.pages.length (p + 2 ^ b.depth) ∧
    (coreSt mix s b bpn p t2).pages.length = s.pages.length + 1 ∧
    (∀ q pq, q < s.pages.length → q ≠ bpn → BucketWF mix s q pq →
      BucketWF mix (coreSt mix s b bpn p t2) q pq) := by
  have hbpn_lt : bpn < s.pages.length := getElem?_some_lt _ _ _ hb
  have hu2 : (2 : Nat) ^ (b.depth + 1) / 2 = 2 ^ b.depth := pow_succ_div_two _
  have hhalfpos : (0 : Nat) < 2 ^ b.depth := Nat.pos_pow_of_pos _ (by norm_num)
  have hsum : (2 : Nat) ^ b.depth + 2 ^ b.depth = 2 ^ (b.depth + 1) := by
    rw [pow_succ]
    omega
  have hL2pos : (0 : Nat) < 2 ^ t2.depth := Nat.pos_pow_of_pos _ (by norm_num)
  have hts : t2.buckets.length = (2 ^ t2.depth - 1) + 1 := by
    rw [ht2len]
    omega
  have hmem_lt : ∀ q ∈ t2.buckets, q < s.pages.length := by
    intro q hq
    obtain ⟨pq, bq, hbq, _⟩ := hWFall q (ht2mem q hq)
    exact getElem?_some_lt _ _ _ hbq
  have hmodsq : ∀ j : Nat, j % 2 ^ (b.depth + 1) % 2 ^ b.depth = j % 2 ^ b.depth :=
    fun j => Nat.mod_mod_of_dvd j (pow_dvd_pow 2 (Nat.le_succ b.depth))
  have hclassp : ∀ j : Nat, j % 2 ^ b.depth = p ↔
      (j % 2 ^ (b.depth + 1) = p ∨ j % 2 ^ (b.depth + 1) = p + 2 ^ b.depth) := by
    intro j
    constructor
    · intro h
      exact low_ext b.depth (j % 2 ^ (b.depth + 1)) p
        (Nat.mod_lt _ (by positivity)) (by rw [hmodsq j, h])
    · intro h
      have hm := hmodsq j
      rcases h with h | h <;> rw [h] at hm
      · rw [Nat.mod_eq_of_lt hplt] at hm
        exact hm.symm
      · rw [Nat.add_mod_right, Nat.mod_eq_of_lt hplt] at hm
        exact hm.symm
  have hpne : p ≠ p + 2 ^ b.depth := by omega
  have hHmod : ∀ k : Int, Hasher mix k (b.depth + 1) % 2 ^ (b.depth + 1) =
      mix k % 2 ^ (b.depth + 1) := by
    intro k
    rw [Hasher]
    exact Nat.mod_mod_of_dvd _ dvd_rfl
  have hcb : (coreSt mix s b bpn p t2).table.buckets =
      rewriteDir t2.buckets p (2 ^ (b.depth + 1)) (2 ^ t2.depth - 1) bpn
        s.pages.length := rfl
  have hcd : (coreSt mix s b bpn p t2).table.depth = t2.depth := rfl
  have hcp : (coreSt mix s b bpn p t2).pages =
      s.pages.set bpn (oldBucketOf mix b) ++ [newBucketOf mix b] := rfl
  have hdirlen2 : (coreSt mix s b bpn p t2).table.buckets.length = 2 ^ t2.depth := by
    rw [hcb, rewriteDir_length, ht2len]
  have hdir2get : ∀ j, j < 2 ^ t2.depth →
      (coreSt mix s b bpn p t2).table.buckets[j]? =
        (if j % 2 ^ (b.depth + 1) = p then some bpn
         else if j % 2 ^ (b.depth + 1) = p + 2 ^ b.depth then some s.pages.length
         else t2.buckets[j]?) := by
    intro j hj
    rw [hcb]
    have h := rewriteDir_get t2.buckets p (2 ^ (b.depth + 1)) (2 ^ t2.depth - 1)
      bpn s.pages.length j (by rw [hu2]; exact hhalfpos) (by rw [hu2]; exact hsum)
      hts (by omega) (by rw [hu2]; exact hplt)
    rw [hu2] at h
    exact h
  have hbpnE : ∀ i, i < t2.buckets.length →
      (t2.buckets[i]? = some bpn ↔ i % 2 ^ b.depth = p) :=
    ht2char bpn b.depth p hdep hchar
  have hentOld : ∀ e ∈ (oldBucketOf mix b).entries,
      mix e.key % 2 ^ (b.depth + 1) = p := by
    intro e he
    obtain ⟨hmem, hq⟩ := List.mem_filter.mp he
    simp only [decide_eq_true_eq] at hq
    rw [hu2, hHmod] at hq
    rcases low_ext b.depth (mix e.key % 2 ^ (b.depth + 1)) p
        (Nat.mod_lt _ (by positivity)) (by rw [hmodsq, hent e hmem]) with h | h
    · exact h
    · exact absurd (by omega : 2 ^ b.depth ≤ mix e.key % 2 ^ (b.depth + 1)) hq
  have hentNew : ∀ e ∈ (newBucketOf mix b).entries,
      mix e.key % 2 ^ (b.depth + 1) = p + 2 ^ b.depth := by
    intro e he
    rw [newBucketOf] at he
    obtain ⟨hmem, hq⟩ := List.mem_filter.mp (List.mem_reverse.mp he)
    simp only [decide_eq_true_eq] at hq
    rw [hu2, hHmod] at hq
    rcases low_ext b.depth (mix e.key % 2 ^ (b.depth + 1)) p
        (Nat.mod_lt _ (by positivity)) (by rw [hmodsq, hent e hmem]) with h | h
    · omega
    · exact h
  have hndOld : ((oldBucketOf mix b).entries.map HashEntry.key).Nodup :=
    hnodup.sublist (List.Sublist.map _ (List.filter_sublist _))
  have hndNew : ((newBucketOf mix b).entries.map HashEntry.key).Nodup := by
    rw [newBucketOf]
    simp only [List.map_reverse, List.nodup_reverse]
    exact hnodup.sublist (List.Sublist.map _ (List.filter_sublist _))
  have hpage_bpn2 : (coreSt mix s b bpn p t2).pages[bpn]? =
      some (oldBucketOf mix b) := by
    rw [hcp, List.getElem?_append,
      if_pos (by simpa [List.length_set] using hbpn_lt)]
    exact List.getElem?_set_eq_of_lt _ hbpn_lt
  have hpage_npn2 : (coreSt mix s b bpn p t2).pages[s.pages.length]? =
      some (newBucketOf mix b) := by
    rw [hcp, List.getElem?_append, if_neg (by simp [List.length_set])]
    simp [List.length_set]
  have hpage_other2 : ∀ q, q < s.pages.length → q ≠ bpn →
      (coreSt mix s b bpn p t2).pages[q]? = s.pages[q]? := by
    intro q hq hne
    rw [hcp, List.getElem?_append, if_pos (by simpa [List.length_set] using hq)]
    exact List.getElem?_set_ne (fun h => hne (h.symm))
  have hpages_len2 : (coreSt mix s b bpn p t2).pages.length = s.pages.length + 1 := by
    rw [hcp]
    simp [List.length_set]
  have hslot_bpn : ∀ j, j < 2 ^ t2.depth →
      ((coreSt mix s b bpn p t2).table.buckets[j]? = some bpn ↔
        j % 2 ^ (b.depth + 1) = p) := by
    intro j hj
    rw [hdir2get j hj]
    by_cases h1 : j % 2 ^ (b.depth + 1) = p
    · rw [if_pos h1]
      simp [h1]
    · rw [if_neg h1]
      by_cases h2 : j % 2 ^ (b.depth + 1) = p + 2 ^ b.depth
      · rw [if_pos h2]
        constructor
        · intro h
          exact absurd (Option.some.inj h).symm (by omega)
        · intro h
          exact absurd h h1
      · rw [if_neg h2]
        constructor
        · intro h
          have := (hbpnE j (by omega)).mp h
          exact absurd ((hclassp j).mp this) (by tauto)
        · intro h
          exact absurd h h1
  have hslot_npn : ∀ j, j < 2 ^ t2.depth →
      ((coreSt mix s b bpn p t2).table.buckets[j]? = some s.pages.length ↔
        j % 2 ^ (b.depth + 1) = p + 2 ^ b.depth) := by
    intro j hj
    rw [hdir2get j hj]
    by_cases h1 : j % 2 ^ (b.depth + 1) = p
    · rw [if_pos h1]
      constructor
      · intro h
        exact absurd (Option.some.inj h) (by omega)
      · intro h
        exact absurd (h1.symm.trans h) hpne
    · rw [if_neg h1]
      by_cases h2 : j % 2 ^ (b.depth + 1) = p + 2 ^ b.depth
      · rw [if_pos h2]
        simp [h2]
      · rw [if_neg h2]
        constructor
        · intro h
          have hmem := mem_of_some_getElem? t2.buckets j _ h
          exact absurd (hmem_lt _ hmem) (by omega)
        · intro h
          exact absurd h h2
  have hslot_other : ∀ q dq pq, q ≠ bpn → q < s.pages.length →
      (∀ i, i < t2.buckets.length → (t2.buckets[i]? = some q ↔ i % 2 ^ dq = pq)) →
      ∀ j, j < 2 ^ t2.depth →
        ((coreSt mix s b bpn p t2).table.buckets[j]? = some q ↔ j % 2 ^ dq = pq) := by
    intro q dq pq hne hqlt hqchar j hj
    rw [hdir2get j hj]
    by_cases h1 : j % 2 ^ (b.depth + 1) = p
    · rw [if_pos h1]
      have hb1 : t2.buckets[j]? = some bpn :=
        (hbpnE j (by omega)).mpr ((hclassp j).mpr (Or.inl h1))
      constructor
      · intro h
        exact absurd (Option.some.inj h).symm hne
      · intro h
        have := (hqchar j (by omega)).mpr h
        rw [hb1] at this
        exact absurd (Option.some.inj this).symm hne
    · rw [if_neg h1]
      by_cases h2 : j % 2 ^ (b.depth + 1) = p + 2 ^ b.depth
      · rw [if_pos h2]
        have hb1 : t2.buckets[j]? = some bpn :=
          (hbpnE j (by omega)).mpr ((hclassp j).mpr (Or.inr h2))
        constructor
        · intro h
          exact absurd (Option.some.inj h) (by omega)
        · intro h
          have := (hqchar j (by omega)).mpr h
          rw [hb1] at this
          exact absurd (Option.some.inj this).symm hne
      · rw [if_neg h2]
        exact hqchar j (by omega)
  have hpreserve : ∀ q pq, q < s.pages.length → q ≠ bpn → BucketWF mix s q pq →
      BucketWF mix (coreSt mix s b bpn p t2) q pq := by
    intro q pq hqlt hqne hBW
    obtain ⟨bq, hbq, hdq, hpqlt, hcharq, hentq, hndq⟩ := hBW
    refine ⟨bq, ?_, ?_, hpqlt, ?_, hentq, hndq⟩
    · rw [hpage_other2 q hqlt hqne]
      exact hbq
    · rw [hcd]
      exact le_trans hdq ht2dD
    · intro i hi
      rw [hdirlen2] at hi
      exact hslot_other q bq.depth pq hqne hqlt
        (ht2char q bq.depth pq hdq hcharq) i hi
  have hBbpn : BucketWF mix (coreSt mix s b bpn p t2) bpn p := by
    refine ⟨oldBucketOf mix b, hpage_bpn2, ?_, ?_, ?_, hentOld, hndOld⟩
    · rw [hcd]
      exact ht2d
    · show p < 2 ^ (b.depth + 1)
      have := Nat.pow_lt_pow_right (a := 2) (by norm_num) (Nat.lt_succ_self b.depth)
      omega
    · intro i hi
      rw [hdirlen2] at hi
      exact hslot_bpn i hi
  have hBnpn : BucketWF mix (coreSt mix s b bpn p t2) s.pages.length
      (p + 2 ^ b.depth) := by
    refine ⟨newBucketOf mix b, hpage_npn2, ?_, ?_, ?_, hentNew, hndNew⟩
    · rw [hcd]
      exact ht2d
    · show p + 2 ^ b.depth < 2 ^ (b.depth + 1)
      omega
    · intro i hi
      rw [hdirlen2] at hi
      exact hslot_npn i hi
  refine ⟨⟨?_, ?_⟩, hBbpn, hBnpn, hpages_len2, hpreserve⟩
  · rw [hdirlen2, hcd]
  · intro pn hpn
    obtain ⟨j, hj, hget⟩ := mem_exists_getElem? _ pn hpn
    rw [hdirlen2] at hj
    rw [hdir2get j hj] at hget
    by_cases h1 : j % 2 ^ (b.depth + 1) = p
    · rw [if_pos h1] at hget
      exact ⟨p, (Option.some.inj hget) ▸ hBbpn⟩
    · rw [if_neg h1] at hget
      by_cases h2 : j % 2 ^ (b.depth + 1) = p + 2 ^ b.depth
      · rw [if_pos h2] at hget
        exact ⟨p + 2 ^ b.depth, (Option.some.inj hget) ▸ hBnpn⟩
      · rw [if_neg h2] at hget
        have hmem : pn ∈ t2.buckets := mem_of_some_getElem? t2.buckets j pn hget
        have hplt2 : pn < s.pages.length := hmem_lt pn hmem
        have hpne2 : pn ≠ bpn := by
          intro he
          subst he
          have := (hbpnE j (by omega)).mp hget
          exact absurd ((hclassp j).mp this) (by tauto)
        obtain ⟨pq, hBW⟩ := hWFall pn (ht2mem pn hmem)
        exact ⟨pq, hpreserve pn pq hplt2 hpne2 hBW⟩

theorem SplitPre_of_BucketWF (mix : Int → Nat) (s : HashState) (q pq : Nat)
    (h : BucketWF mix s q pq) : SplitPre mix s q pq pq := by
  refine ⟨h, ?_⟩
  intro b2 hb2
  obtain ⟨bb, hbb, _, hplt, _⟩ := h
  rw [hbb] at hb2
  cases hb2
  exact Nat.mod_eq_of_lt hplt

/-- All consequences of one splitStep under the split precondition: the
starting slot is the old pattern, the half-step is the old block size,
and the resulting state satisfies the well-formedness package of
split_core. -/
theorem splitStep_facts (mix : Int → Nat) (s : HashState) (b : HashBucket)
    (bpn hash p : Nat)
    (hWF : WF mix s) (hb : s.pages[bpn]? = some b)
    (hBW : BucketWF mix s bpn p)
    (hhash : hash % 2 ^ b.depth = p) :
    (splitStep mix s b bpn hash).startNum = p ∧
    (splitStep mix s b bpn hash).half = 2 ^ b.depth ∧
    WF mix (splitStep mix s b bpn hash).st ∧
    BucketWF mix (splitStep mix s b bpn hash).st bpn p ∧
    BucketWF mix (splitStep mix s b bpn hash).st s.pages.length
      (p + 2 ^ b.depth) ∧
    (splitStep mix s b bpn hash).st.pages.length = s.pages.length + 1 ∧
    (∀ q pq, q < s.pages.length → q ≠ bpn → BucketWF mix s q pq →
      BucketWF mix (splitStep mix s b bpn hash).st q pq) := by
  obtain ⟨b0, hb0, hdep, hplt, hchar, hent, hnd⟩ := hBW
  rw [hb] at hb0
  cases hb0
  obtain ⟨hWFlen, hWFall⟩ := hWF
  have hst := splitStep_st_eq mix s b bpn hash p hhash
  have hcore := split_core mix s b bpn p
    (if s.table.depth < b.depth + 1 then s.table.extendTable else s.table)
    hWFlen hWFall hb hdep hplt hchar hent hnd ?_ ?_ ?_ ?_ ?_
  · rw [splitStep_startNum_eq mix s b bpn hash p hhash,
      splitStep_half_eq mix s b bpn hash, hst]
    exact ⟨rfl, rfl, hcore.1, hcore.2.1, hcore.2.2.1, hcore.2.2.2.1,
      hcore.2.2.2.2⟩
  · by_cases hext : s.table.depth < b.depth + 1
    · rw [if_pos hext]
      show (s.table.buckets ++ s.table.buckets).length = 2 ^ (s.table.depth + 1)
      rw [List.length_append, hWFlen, pow_succ]
      omega
    · rw [if_neg hext]
      exact hWFlen
  · by_cases hext : s.table.depth < b.depth + 1
    · rw [if_pos hext]
      show b.depth + 1 ≤ s.table.depth + 1
      omega
    · rw [if_neg hext]
      omega
  · by_cases hext : s.table.depth < b.depth + 1
    · rw [if_pos hext]
      show s.table.depth ≤ s.table.depth + 1
      omega
    · rw [if_neg hext]
  · intro q dq pq hdq hcq
    by_cases hext : s.table.depth < b.depth + 1
    · rw [if_pos hext]
      exact extend_char s.table.buckets s.table.depth dq pq q hWFlen hdq hcq
    · rw [if_neg hext]
      exact hcq
  · intro q hq
    by_cases hext : s.table.depth < b.depth + 1
    · rw [if_pos hext] at hq
      rcases List.mem_append.mp hq with h | h <;> exact h
    · rw [if_neg hext] at hq
      exact hq

/-- The split recursion preserves well-formedness: whenever Split returns,
the state is well-formed, page numbers only grow, and buckets other than
the split one keep their patterns. -/
theorem split_preserves (mix : Int → Nat) :
    ∀ (fuel : Nat) (s : HashState) (bpn hash p : Nat) (s2 : HashState),
      WF mix s → SplitPre mix s bpn hash p →
      HashState.split mix fuel s bpn hash = some s2 →
      WF mix s2 ∧ s.pages.length ≤ s2.pages.length ∧
        (∀ q pq, q < s.pages.length → q ≠ bpn → BucketWF mix s q pq →
          BucketWF mix s2 q pq) := by
  intro fuel
  induction fuel with
  | zero =>
    intro s bpn hash p s2 _ _ hsplit
    cases hsplit
  | succ n ih =>
    intro s bpn hash p s2 hWF hpre hsplit
    obtain ⟨hBW, hhashb⟩ := hpre
    obtain ⟨b, hb, hrest⟩ := hBW
    have hBW : BucketWF mix s bpn p := ⟨b, hb, hrest⟩
    have hhash : hash % 2 ^ b.depth = p := hhashb b hb
    have hbpn_lt : bpn < s.pages.length := getElem?_some_lt _ _ _ hb
    obtain ⟨hsn, hhf, hWF2, hB2bpn, hB2npn, hlen2, hpres2⟩ :=
      splitStep_facts mix s b bpn hash p hWF hb hBW hhash
    unfold HashState.split at hsplit
    rw [hb] at hsplit
    dsimp only at hsplit
    rw [hsn, hhf] at hsplit
    by_cases hmv : ((splitStep mix s b bpn hash).movedLen == 0) = true
    · rw [if_pos hmv] at hsplit
      match hrec1 : HashState.split mix n (splitStep mix s b bpn hash).st bpn p with
      | none =>
        rw [hrec1] at hsplit
        cases hsplit
      | some s3 =>
        rw [hrec1] at hsplit
        dsimp only at hsplit
        obtain ⟨hWF3, hlen3, hpres3⟩ := ih (splitStep mix s b bpn hash).st bpn p p
          s3 hWF2 (SplitPre_of_BucketWF mix _ bpn p hB2bpn) hrec1
        have hB3npn : BucketWF mix s3 s.pages.length (p + 2 ^ b.depth) :=
          hpres3 s.pages.length (p + 2 ^ b.depth) (by omega) (by omega) hB2npn
        match hb3 : s3.pages[bpn]? with
        | none =>
          rw [hb3] at hsplit
          cases hsplit
        | some b3 =>
          rw [hb3] at hsplit
          dsimp only at hsplit
          by_cases hbe : (b3.entries.length == 0) = true
          · rw [if_pos hbe] at hsplit
            obtain ⟨hWF4, hlen4, hpres4⟩ := ih s3 s.pages.length (p + 2 ^ b.depth)
              (p + 2 ^ b.depth) s2 hWF3
              (SplitPre_of_BucketWF mix _ _ _ hB3npn) hsplit
            refine ⟨hWF4, by omega, ?_⟩
            intro q pq hqlt hqne hq
            exact hpres4 q pq (by omega) (by omega)
              (hpres3 q pq (by omega) hqne (hpres2 q pq hqlt hqne hq))
          · rw [if_neg hbe] at hsplit
            cases hsplit
            refine ⟨hWF3, by omega, ?_⟩
            intro q pq hqlt hqne hq
            exact hpres3 q pq (by omega) hqne (hpres2 q pq hqlt hqne hq)
    · rw [if_neg hmv] at hsplit
      by_cases hkp : ((splitStep mix s b bpn hash).keptLen == 0) = true
      · rw [if_pos hkp] at hsplit
        obtain ⟨hWF3, hlen3, hpres3⟩ := ih (splitStep mix s b bpn hash).st
          s.pages.length (p + 2 ^ b.depth) (p + 2 ^ b.depth) s2 hWF2
          (SplitPre_of_BucketWF mix _ _ _ hB2npn) hsplit
        refine ⟨hWF3, by omega, ?_⟩
        intro q pq hqlt hqne hq
        exact hpres3 q pq (by omega) (by omega) (hpres2 q pq hqlt hqne hq)
      · rw [if_neg hkp] at hsplit
        cases hsplit
        refine ⟨hWF2, by omega, hpres2⟩

/-- Setting one page leaves every other bucket's well-formedness alone. -/
theorem BucketWF_set_other (mix : Int → Nat) (s : HashState) (pn : Nat)
    (b2 : HashBucket) (q pq : Nat) (hne : q ≠ pn)
    (h : BucketWF mix s q pq) :
    BucketWF mix { table := s.table, pages := s.pages.set pn b2 } q pq := by
  obtain ⟨bq, hbq, hdep, hplt, hchar, hent, hnd⟩ := h
  exact ⟨bq, by rw [List.getElem?_set_ne (fun he => hne he.symm)]; exact hbq,
    hdep, hplt, hchar, hent, hnd⟩

/-- Insert preserves well-formedness (table.go Insert with the
spec-modelled bucket-level insert and the Split recursion). -/
theorem insert_WF (mix : Int → Nat) (bsize fuel : Nat) (s : HashState)
    (k v : Int) (s2 : HashState) (er : Option String)
    (hWF : WF mix s)
    (hins : HashState.insert mix bsize fuel s k v = some (s2, er)) :
    WF mix s2 := by
  have hh0 : Hasher mix k s.table.depth < s.table.buckets.length := by
    rw [hWF.1]
    exact Nat.mod_lt _ (Nat.pos_pow_of_pos _ (by norm_num))
  obtain ⟨pn, hpn⟩ : ∃ pn, s.table.buckets[Hasher mix k s.table.depth]? = some pn :=
    ⟨_, List.getElem?_eq_getElem hh0⟩
  have hpnmem : pn ∈ s.table.buckets := mem_of_some_getElem? _ _ _ hpn
  obtain ⟨p, hBW⟩ := hWF.2 pn hpnmem
  obtain ⟨b, hb, hdep, hplt, hchar, hent, hnd⟩ := hBW
  have hpn_lt : pn < s.pages.length := getElem?_some_lt _ _ _ hb
  unfold HashState.insert at hins
  dsimp only at hins
  rw [hpn] at hins
  dsimp only at hins
  rw [hb] at hins
  dsimp only at hins
  unfold HashBucket.insert at hins
  by_cases hdup : (b.entries.any fun e => e.key == k) = true
  · rw [if_pos hdup] at hins
    dsimp only at hins
    cases hins
    exact hWF
  · rw [if_neg hdup] at hins
    dsimp only at hins
    have hkabs : ∀ e ∈ b.entries, e.key ≠ k := by
      intro e he hk
      exact hdup (List.any_eq_true.mpr ⟨e, he, by simp [hk]⟩)
    have hkp : mix k % 2 ^ b.depth = p := by
      have h1 := (hchar (Hasher mix k s.table.depth) hh0).mp hpn
      rw [Hasher, Nat.mod_mod_of_dvd _ (pow_dvd_pow 2 hdep)] at h1
      exact h1
    have hBW1 : BucketWF mix
        { table := s.table,
          pages := s.pages.set pn
            { depth := b.depth, entries := b.entries ++ [{ key := k, value := v }] } }
        pn p := by
      refine ⟨{ depth := b.depth, entries := b.entries ++ [{ key := k, value := v }] },
        List.getElem?_set_eq_of_lt _ hpn_lt, hdep, hplt, hchar, ?_, ?_⟩
      · intro e he
        rcases List.mem_append.mp he with h | h
        · exact hent e h
        · rw [List.mem_singleton.mp h]
          exact hkp
      · rw [List.map_append]
        refine List.Nodup.append hnd (by simp) ?_
        intro a ha hb2
        simp only [List.map_cons, List.map_nil, List.mem_singleton] at hb2
        obtain ⟨e, he, hea⟩ := List.mem_map.mp ha
        exact hkabs e he (by rw [hea, hb2])
    have hWF1 : WF mix
        { table := s.table,
          pages := s.pages.set pn
            { depth := b.depth, entries := b.entries ++ [{ key := k, value := v }] } } := by
      refine ⟨hWF.1, ?_⟩
      intro q hq
      by_cases hqe : q = pn
      · subst hqe
        exact ⟨p, hBW1⟩
      · obtain ⟨pq, hBWq⟩ := hWF.2 q hq
        exact ⟨pq, BucketWF_set_other mix s pn _ q pq hqe hBWq⟩
    by_cases hflag : ((b.entries ++ [({ key := k, value := v } : HashEntry)]).length == bsize) = true
    · rw [if_pos hflag] at hins
      match hsp : HashState.split mix fuel
          { table := s.table,
            pages := s.pages.set pn
              { depth := b.depth, entries := b.entries ++ [{ key := k, value := v }] } }
          pn (Hasher mix k s.table.depth) with
      | none =>
        rw [hsp] at hins
        cases hins
      | some s3 =>
        rw [hsp] at hins
        cases hins
        have hpre : SplitPre mix
            { table := s.table,
              pages := s.pages.set pn
                { depth := b.depth, entries := b.entries ++ [{ key := k, value := v }] } }
            pn (Hasher mix k s.table.depth) p := by
          refine ⟨hBW1, ?_⟩
          intro b2 hb2
          rw [List.getElem?_set_eq_of_lt _ hpn_lt] at hb2
          cases hb2
          show Hasher mix k s.table.depth % 2 ^ b.depth = p
          rw [Hasher, Nat.mod_mod_of_dvd _ (pow_dvd_pow 2 hdep)]
          exact hkp
        exact (split_preserves mix fuel _ pn (Hasher mix k s.table.depth) p _
          hWF1 hpre hsp).1
    · rw [if_neg hflag] at hins
      cases hins
      exact hWF1

theorem insertAll_WF (mix : Int → Nat) (bsize fuel : Nat) :
    ∀ (ops : List (Int × Int)) (s s2 : HashState), WF mix s →
      insertAll mix bsize fuel s ops = some s2 → WF mix s2 := by
  intro ops
  induction ops with
  | nil =>
    intro s s2 hWF h
    cases h
    exact hWF
  | cons op rest ih =>
    intro s s2 hWF h
    unfold insertAll at h
    match hins : HashState.insert mix bsize fuel s op.1 op.2 with
    | none =>
      rw [hins] at h
      cases h
    | some (s1, er) =>
      rw [hins] at h
      exact ih s1 s2 (insert_WF mix bsize fuel s op.1 op.2 s1 er hWF hins) h

theorem newHashTable_WF (mix : Int → Nat) : WF mix newHashTable := by
  refine ⟨by decide, ?_⟩
  intro pn hpn
  have h4 : pn = 0 ∨ pn = 1 ∨ pn = 2 ∨ pn = 3 := by
    simpa [newHashTable] using hpn
  rcases h4 with h | h | h | h <;> subst h
  · exact ⟨0, { depth := 2, entries := [] }, by decide, by decide, by decide,
      by decide, by simp, by simp⟩
  · exact ⟨1, { depth := 2, entries := [] }, by decide, by decide, by decide,
      by decide, by simp, by simp⟩
  · exact ⟨2, { depth := 2, entries := [] }, by decide, by decide, by decide,
      by decide, by simp, by simp⟩
  · exact ⟨3, { depth := 2, entries := [] }, by decide, by decide, by decide,
      by decide, by simp, by simp⟩

theorem WF_isHash (mix : Int → Nat) (s : HashState) (hWF : WF mix s) :
    isHash mix s = true ∧
      (∀ pn ∈ s.table.buckets, ∀ b2, s.pages[pn]? = some b2 →
        ∀ e ∈ b2.entries, ∀ i, i < s.table.buckets.length →
          s.table.buckets[i]? = some pn →
            Hasher mix e.key b2.depth = i % 2 ^ b2.depth) := by
  constructor
  · rw [isHash, List.all_eq_true]
    intro pn hpn
    obtain ⟨p, b, hb, hdep, hplt, hchar, hent, _⟩ := hWF.2 pn hpn
    rw [hb]
    dsimp only
    rw [List.all_eq_true]
    intro e he
    have hK : Hasher mix e.key b.depth = p := by
      rw [Hasher]
      exact hent e he
    rw [hK]
    have hplen : p < s.table.buckets.length := by
      rw [hWF.1]
      exact lt_of_lt_of_le hplt (Nat.pow_le_pow_right (by norm_num) hdep)
    have hsl : s.table.buckets[p]? = some pn :=
      (hchar p hplen).mpr (Nat.mod_eq_of_lt hplt)
    simp [hsl]
  · intro pn hpn b2 hb2 e he i hi hieq
    obtain ⟨p, b, hb, hdep, hplt, hchar, hent, _⟩ := hWF.2 pn hpn
    rw [hb] at hb2
    cases hb2
    rw [Hasher, hent e he, (hchar i hi).mp hieq]

/-- C4: after any terminating sequence of Insert operations on a fresh
hash table (including the bucket splits and directory extensions they
trigger, and for every mixing hash and BUCKETSIZE), every entry k stored
in a bucket at page pn with local depth d hashes, at depth d, to the
index (reduced mod 2^d) of every directory slot pointing to pn, and the
IsHash check of verify.go returns true. -/
theorem hash_insert_invariant (mix : Int → Nat) (bsize fuel : Nat)
    (ops : List (Int × Int)) (s : HashState)
    (h : insertAll mix bsize fuel newHashTable ops = some s) :
    isHash mix s = true ∧
      (∀ pn ∈ s.table.buckets, ∀ b2, s.pages[pn]? = some b2 →
        ∀ e ∈ b2.entries, ∀ i, i < s.table.buckets.length →
          s.table.buckets[i]? = some pn →
            Hasher mix e.key b2.depth = i % 2 ^ b2.depth) :=
  WF_isHash mix s
    (insertAll_WF mix bsize fuel ops newHashTable s (newHashTable_WF mix) h)

/-- Witness for C4: with BUCKETSIZE 2 and keys 0 and 4 (which collide in
the low two bits), the insert run performs a split with a directory
extension, and the invariant theorem applies to the resulting concrete
state. -/
theorem hash_insert_invariant_witness :
    isHash identMix c4State = true ∧
      (∀ pn ∈ c4State.table.buckets, ∀ b2, c4State.pages[pn]? = some b2 →
        ∀ e ∈ b2.entries, ∀ i, i < c4State.table.buckets.length →
          c4State.table.buckets[i]? = some pn →
            Hasher identMix e.key b2.depth = i % 2 ^ b2.depth) :=
  hash_insert_invariant identMix 2 10 [(0, 1), (4, 2)] c4State (by decide)

end DbCore
